import Mathlib

/-!
Verification of the core algorithms of the Aerolineas Rusticas distributed
row-store against its natural-language specification.

The Rust source is shallowly embedded: pure fragments become Lean functions,
`u8`/`i32`/`u128`/`usize` become `Nat`/`Int` with explicit wrap-around where it
matters, fallible code returns `Except Nat` carrying the source's numeric error
codes, and file contents are represented by their parsed list of lines (a CSV
line is the list of its comma-separated cells; the CSV layer itself is a
bijection on comma-free cells).  Rust `HashMap` iteration, whose order is
unspecified, is modelled by insertion order; Rust's stable `sort_by` is
modelled by `List.insertionSort`, which computes the same list as any stable
sort for the same comparator.
-/

deriving instance DecidableEq for Except

namespace AirRust

/-! ## Basic machine-integer and string helpers -/

/-- Wrapping `usize` decrement: Rust release-mode `x - 1` on `usize`. -/
def usizePred (x : Nat) : Nat := (x + (2 ^ 64 - 1)) % 2 ^ 64

/-- Two's-complement reading of a 32-bit pattern, as Rust reinterprets the
accumulated bytes as `i32`. -/
def toSigned32 (n : Nat) : Int :=
  if n % 2 ^ 32 < 2 ^ 31 then (n % 2 ^ 32 : Int) else (n % 2 ^ 32 : Int) - 2 ^ 32

/-- Rust `Ordering` on naturals (`u128::cmp`). -/
def natCmp (a b : Nat) : Ordering :=
  if a < b then .lt else if a = b then .eq else .gt

/-- Rust `Ordering` on integers (`i32::cmp`). -/
def intCmp (a b : Int) : Ordering :=
  if a < b then .lt else if a = b then .eq else .gt

/-- Rust `Ordering` on characters (UTF-8 byte order coincides with code-point
order). -/
def charCmp (a b : Char) : Ordering := natCmp a.toNat b.toNat

/-- Lexicographic ordering on lists, as Rust compares `String`s byte-wise. -/
def listCmp (cmp : α → α → Ordering) : List α → List α → Ordering
  | [], [] => .eq
  | [], _ :: _ => .lt
  | _ :: _, [] => .gt
  | a :: as', b :: bs' =>
    match cmp a b with
    | .eq => listCmp cmp as' bs'
    | o => o

/-- Rust `String::cmp`. -/
def strCmp (a b : String) : Ordering := listCmp charCmp a.data b.data

/-- Value of a list of decimal digit characters. -/
def digitsVal (cs : List Char) : Nat :=
  cs.foldl (fun n c => n * 10 + (c.toNat - 48)) 0

/-- Rust `str::parse::<iN>` before the range check: optional sign then at
least one digit. -/
def parseIntRaw (cs : List Char) : Option Int :=
  match cs with
  | '+' :: ds => if ds ≠ [] ∧ ds.all Char.isDigit then some (digitsVal ds) else none
  | '-' :: ds => if ds ≠ [] ∧ ds.all Char.isDigit then some (-(digitsVal ds : Int)) else none
  | ds => if ds ≠ [] ∧ ds.all Char.isDigit then some (digitsVal ds) else none

/-- Rust `str::parse::<i32>`: sign, digits, and the `i32` range check
(overflow is a parse error). -/
def parseI32 (s : String) : Option Int :=
  match parseIntRaw s.data with
  | some v => if -(2 ^ 31) ≤ v ∧ v < 2 ^ 31 then some v else none
  | none => none

/-- Rust `str::parse::<u128>`: optional `+`, digits, range check. -/
def parseU128 (s : String) : Option Nat :=
  match s.data with
  | '-' :: _ => none
  | _ =>
    match parseIntRaw s.data with
    | some v => if 0 ≤ v ∧ v < 2 ^ 128 then some v.toNat else none
    | none => none

/-- Timestamp value of an RFC3339 string produced by chrono's `to_rfc3339`.
Models `chrono::DateTime::<Utc>::from_str` followed by instant comparison: on
the fixed-width strings `to_rfc3339` emits, concatenating the digit characters
is strictly monotone in the instant, so comparisons of `tsVal` agree with
comparisons of the parsed timestamps. -/
def tsVal (s : String) : Nat :=
  digitsVal (s.data.filter Char.isDigit)

/-- Lower-cases a string character-wise (Rust `str::to_lowercase` on the ASCII
identifiers this code base handles). -/
def lowerStr (s : String) : String := String.mk (s.data.map Char.toLower)

/-! ## Wire codec primitives — `src/receiver/read_notation.rs`

Byte buffers are `List Nat` with each element a `u8` value; every reader
returns the decoded value together with the remaining buffer, mirroring the
source's `bytes.drain(..)` calls. -/

/-- The `[value]` / `[bytes]` payload type — `src/protocol/protocol_notations/value.rs`. -/
inductive Value where
  | Null : Value
  | NotSet : Value
  | Normal : List Nat → Value
deriving DecidableEq, Repr

/-- `read_int` (`read_notation.rs:8`): four big-endian bytes folded with
`result << 8 | item as i32`, which yields the two's-complement reading of the
4-byte pattern. -/
def read_int : List Nat → Except Nat (Int × List Nat)
  | b0 :: b1 :: b2 :: b3 :: rest =>
    .ok (toSigned32 ((((b0 % 256) * 256 + b1 % 256) * 256 + b2 % 256) * 256 + b3 % 256), rest)
  | _ => .error 300

/-- `read_bytes` (`read_notation.rs:87`): any negative length yields
`Value::Null` paired with that length. -/
def read_bytes (bytes : List Nat) : Except Nat ((Int × Value) × List Nat) := do
  let (length, rest) ← read_int bytes
  if length < 0 then
    return ((length, .Null), rest)
  if (rest.length : Int) < length then
    throw 306
  return ((length, .Normal (rest.take length.toNat)), rest.drop length.toNat)

/-- `read_value` (`read_notation.rs:100`): `-1` decodes to null, `-2` to
not-set, below `-2` is an error, otherwise the next `length` bytes are the
value (the source's unchecked `drain` is modelled by `take`/`drop`). -/
def read_value (bytes : List Nat) : Except Nat (Value × List Nat) := do
  let (value_type, rest) ← read_int bytes
  if value_type < -2 then
    throw 307
  if value_type = -1 then
    return (.Null, rest)
  if value_type = -2 then
    return (.NotSet, rest)
  return (.Normal (rest.take value_type.toNat), rest.drop value_type.toNat)

/-! ## Gossip digests and endpoint states — `src/server/gossip_digest.rs`,
`src/server/endpoint_state.rs`, `src/server/gossiper.rs` -/

inductive Status where
  | Up : Status
  | Down : Status
deriving DecidableEq, Repr

/-- `HeartbeatState` plus `ApplicationState` flattened into `EndpointState`
(fields as in the source structs). -/
structure EndpointState where
  generation : Int
  heartbeat : Int
  status : Status
  address : String
deriving DecidableEq, Repr

structure GossipDigest where
  endpoint_address : String
  generation : Int
  max_version : Int
deriving DecidableEq, Repr

/-- `EndpointState::to_digest` (`endpoint_state.rs:35`). -/
def EndpointState.to_digest (e : EndpointState) : GossipDigest :=
  ⟨e.address, e.generation, e.heartbeat⟩

/-- `EndpointState::get_generation` (`endpoint_state.rs:58`) — note the source
returns the **heartbeat** field, not the generation. -/
def EndpointState.get_generation (e : EndpointState) : Int := e.heartbeat

/-- `GossipDigest::compare_digests` (`gossip_digest.rs:30`): generation first,
tie-broken by `max_version` (the heartbeat), by integer subtraction. -/
def GossipDigest.compare_digests (a b : GossipDigest) : Int :=
  if a.generation ≠ b.generation then a.generation - b.generation
  else a.max_version - b.max_version

/-- The endpoint-state map (Rust `HashMap<String, EndpointState>`) as an
association list whose keys are unique by construction; `insert` replaces the
binding in place or appends a fresh one. -/
def mapInsert : List (String × EndpointState) → String → EndpointState →
    List (String × EndpointState)
  | [], k, v => [(k, v)]
  | p :: rest, k, v => if p.1 = k then (k, v) :: rest else p :: mapInsert rest k v

def mapLookup : List (String × EndpointState) → String → Option EndpointState
  | [], _ => none
  | p :: rest, k => if p.1 = k then some p.2 else mapLookup rest k

/-- `Gossiper::update_endpoint_state` (`gossiper.rs:197`): the incoming state
is stored unconditionally unless the address is the local one and the stored
`get_generation()` (= heartbeat) strictly exceeds the incoming one. -/
def update_endpoint_state (m : List (String × EndpointState)) (endpoint_state : EndpointState)
    (localAddr : String) : List (String × EndpointState) :=
  let address := endpoint_state.address
  match mapLookup m address with
  | some actual =>
    if address = localAddr ∧ actual.get_generation > endpoint_state.get_generation then m
    else mapInsert m address endpoint_state
  | none => mapInsert m address endpoint_state

/-- Digest `a` is strictly newer than digest `b` (the spec's order: generation,
then heartbeat). -/
def digestNewer (a b : GossipDigest) : Prop :=
  b.generation < a.generation ∨ (a.generation = b.generation ∧ b.max_version < a.max_version)

instance (a b : GossipDigest) : Decidable (digestNewer a b) := by
  unfold digestNewer; infer_instance

/-! ## Predicate evaluation — `src/server/sstable.rs` and
`src/protocol/query_parser/{relation,clause}.rs` -/

inductive Relation where
  | Equal : String → String → Relation
  | Higher : String → String → Relation
  | HigherEqual : String → String → Relation
  | Lower : String → String → Relation
  | LowerEqual : String → String → Relation
deriving DecidableEq, Repr

inductive Clause where
  | And : Clause → Clause → Clause
  | Or : Clause → Clause → Clause
  | Not : Clause → Clause
  | Term : Relation → Clause
  | Placeholder : Clause
  | Lpar : Clause
  | Rpar : Clause
deriving DecidableEq, Repr

/-- The cell environment `HashMap<&String, String>`: association list built by
inserting each declared column once, looked up by column name. -/
abbrev Env := List (String × String)

def Env.get (env : Env) (k : String) : Option String :=
  (List.find? (fun p => p.1 = k) env).map Prod.snd

def Env.containsKey (env : Env) (k : String) : Bool :=
  (Env.get env k).isSome

/-- `comparing_parser` (`sstable.rs:179`): numeric comparison when both sides
parse as `i32`, lexical otherwise. -/
def comparing_parse (v1 v2 : String) : Ordering :=
  match parseI32 v1, parseI32 v2 with
  | some r1, some r2 => intCmp r1 r2
  | _, _ => strCmp v1 v2

/-- `meets_relation` (`sstable.rs:110`). For `Equal`: one declared side is
compared against the literal other side; with **both** sides declared the two
cell values are compared; with **neither** declared the evaluation errors. -/
def meets_relation (relation : Relation) (values : Env) : Except Nat Bool :=
  match relation with
  | .Equal v1 v2 =>
    if values.containsKey v1 ∧ ¬values.containsKey v2 then
      .ok (values.get v1 = some v2)
    else if values.containsKey v2 ∧ ¬values.containsKey v1 then
      .ok (values.get v2 = some v1)
    else if ¬values.containsKey v1 ∧ ¬values.containsKey v2 then
      .error 576
    else
      .ok (values.get v1 = values.get v2)
  | .Higher v1 v2 =>
    match values.get v1, values.get v2 with
    | some r1, some r2 => .ok (comparing_parse r1 r2 = .gt)
    | some r1, none => .ok (comparing_parse r1 v2 = .gt)
    | none, some r2 => .ok (comparing_parse v1 r2 = .gt)
    | none, none => .error 577
  | .HigherEqual v1 v2 =>
    match values.get v1, values.get v2 with
    | some r1, some r2 => .ok (comparing_parse r1 r2 ≠ .lt)
    | some r1, none => .ok (comparing_parse r1 v2 ≠ .lt)
    | none, some r2 => .ok (comparing_parse v1 r2 ≠ .lt)
    | none, none => .error 578
  | .Lower v1 v2 =>
    match values.get v1, values.get v2 with
    | some r1, some r2 => .ok (comparing_parse r1 r2 = .lt)
    | some r1, none => .ok (comparing_parse r1 v2 = .lt)
    | none, some r2 => .ok (comparing_parse v1 r2 = .lt)
    | none, none => .error 579
  | .LowerEqual v1 v2 =>
    match values.get v1, values.get v2 with
    | some r1, some r2 => .ok (comparing_parse r1 r2 ≠ .gt)
    | some r1, none => .ok (comparing_parse r1 v2 ≠ .gt)
    | none, some r2 => .ok (comparing_parse v1 r2 ≠ .gt)
    | none, none => .error 580

/-- `meets_conditions` (`sstable.rs:83`); the catch-all arm returns
`Ok(false)` for `Lpar`/`Rpar`. -/
def meets_conditions (values : Env) : Clause → Except Nat Bool
  | .And left right => do
    let l ← meets_conditions values left
    if l then meets_conditions values right else .ok false
  | .Not right => do
    let r ← meets_conditions values right
    .ok (!r)
  | .Or left right => do
    let l ← meets_conditions values left
    if l then .ok true else meets_conditions values right
  | .Term relation => meets_relation relation values
  | .Placeholder => .ok true
  | _ => .ok false

/-! ## Storage engine — `src/server/mem_table.rs`

A stored line is `[token-string, cell₀, …, cellₙ, rfc3339-timestamp]`; the
SSTable file is its parsed list of lines.  The source's `unwrap()`ed parses
are modelled with defaults that the theorems' hypotheses keep unreachable. -/

abbrev Line := List String

structure MemTable where
  data : List (Nat × List Line)
  columns : List String
  partition_key : List (String × Nat)
  clustering_key : List (String × Nat)
  columns_type : List (String × String)
  sstable : List Line
deriving DecidableEq, Repr

/-- `MemTable::make_partition_key` (`mem_table.rs:130`). -/
def make_partition_key (primary_key : List String) (columns : List (String × String)) :
    List (String × Nat) :=
  (columns.enum.filter (fun p => primary_key.contains p.2.1)).map (fun p => (p.2.1, p.1))

/-- `MemTable::make_clustering_key` (`mem_table.rs:150`): clustering indices
are stored shifted by one (they index directly into a stored line). -/
def make_clustering_key (clustering_key : List String) (columns : List (String × String)) :
    List (String × Nat) :=
  clustering_key.flatMap (fun key =>
    (columns.enum.filter (fun p => p.2.1 = key)).map (fun p => (key, p.1 + 1)))

/-- `MemTable::new` (`mem_table.rs:83`) with the backing file contents in
place of the file handle. -/
def MemTable.new (columns_type : List (String × String)) (partition_key : List String)
    (clustering_key : List String) (fileLines : List Line) : MemTable :=
  { data := []
    columns := columns_type.map Prod.fst
    partition_key := make_partition_key partition_key columns_type
    clustering_key := make_clustering_key clustering_key columns_type
    columns_type := columns_type
    sstable := fileLines }

/-- `is_tombstone` (`mem_table.rs:791`): any cell equal to `"X"`. -/
def is_tombstone (row : List String) : Bool := row.any (fun x => x = "X")

/-- First data cell of a stored line (`line[1]`), the key `filter_lines`
groups by. -/
def lineKey1 (line : Line) : String := line.getD 1 ""

/-- Timestamp of a stored line (`line.last().unwrap()` parsed by chrono). -/
def lineTs (line : Line) : Nat := tsVal (line.getLastD "")

/-- One step of the newest-per-key `HashMap` accumulation used by both
`filter_lines` and `get_newest`: replace only on a strictly greater
timestamp; `HashMap` iteration is modelled by insertion order. -/
def upsertNewest (key : Line → String) (acc : List (String × (Nat × Line))) (line : Line) :
    List (String × (Nat × Line)) :=
  match acc.find? (fun p => p.1 = key line) with
  | some p =>
    if p.2.1 < lineTs line then
      acc.map (fun q => if q.1 = key line then (q.1, (lineTs line, line)) else q)
    else acc
  | none => acc ++ [(key line, (lineTs line, line))]

/-- `MemTable::filter_lines` (`mem_table.rs:279`): newest line per **first
data cell** (`line[1]`). -/
def filter_lines (lines : List Line) : List Line :=
  (lines.foldl (upsertNewest lineKey1) []).map (fun p => p.2.2)

/-- Token of a stored line (`a[0].parse::<u128>().unwrap()`). -/
def lineTok (line : Line) : Nat := (parseU128 (line.getD 0 "")).getD 0

/-- Clustering cell of a stored line at index `ckIdx`
(`a[primary_key].replace("-", "").parse::<i32>().unwrap()`). -/
def lineClu (ckIdx : Nat) (line : Line) : Int :=
  (parseI32 (String.mk ((line.getD ckIdx "").data.filter (fun c => c ≠ '-')))).getD 0

/-- The comparator of `MemTable::sort_lines` (`mem_table.rs:259`): token
first, then the first clustering column. -/
def lineCmp (ckIdx : Nat) (a b : Line) : Ordering :=
  match natCmp (lineTok a) (lineTok b) with
  | .eq => intCmp (lineClu ckIdx a) (lineClu ckIdx b)
  | o => o

def lineLe (ckIdx : Nat) (a b : Line) : Prop := lineCmp ckIdx a b ≠ .gt

instance (ckIdx : Nat) (a b : Line) : Decidable (lineLe ckIdx a b) := by
  unfold lineLe; infer_instance

/-- Index used by `sort_lines`: `self.clustering_key[0].1` (a panic on an
empty clustering key is modelled by the default `0`). -/
def MemTable.ckIdx (tbl : MemTable) : Nat := (tbl.clustering_key.getD 0 ("", 0)).2

/-- `MemTable::sort_lines` (`mem_table.rs:259`); Rust's stable `sort_by` is
modelled by insertion sort, which computes the identical list. -/
def sort_lines (tbl : MemTable) (lines : List Line) : List Line :=
  lines.insertionSort (lineLe tbl.ckIdx)

/-- `order_hash` (`mem_table.rs:816`): the partition map's entries in
ascending key order. -/
def order_hash (data : List (Nat × List Line)) : List (Nat × List Line) :=
  data.insertionSort (fun a b => a.1 ≤ b.1)

/-- The memtable rows appended by `compact_sstable` (`mem_table.rs:315`). -/
def mem_lines (tbl : MemTable) : List Line :=
  (order_hash tbl.data).foldl (fun acc p => acc ++ p.2) []

/-- `MemTable::compact_sstable` (`mem_table.rs:313`): the lines written to the
rewritten SSTable file (`filter_lines_timestamp` only joins the cells back
with commas, so the file contents are exactly these lines). -/
def compact_sstable (tbl : MemTable) : List Line :=
  sort_lines tbl (filter_lines (tbl.sstable ++ mem_lines tbl))

/-- The HashMap of `filter_lines` is drained (`for (_, (_, line)) in hash`,
`mem_table.rs:306`) in an **unspecified** order.  The map itself is
deterministic — `filter_lines` lists its entries in insertion order — so the
admissible intermediate line lists are exactly the permutations of that
canonical enumeration. -/
def AdmissibleDrain (tbl : MemTable) (drained : List Line) : Prop :=
  drained.Perm (filter_lines (tbl.sstable ++ mem_lines tbl))

instance (tbl : MemTable) (drained : List Line) : Decidable (AdmissibleDrain tbl drained) := by
  unfold AdmissibleDrain
  infer_instance

/-- `MemTable::compact_sstable` with the HashMap drain order made explicit:
whatever order the map drains in, the lines are then stably sorted. -/
def compact_sstable_drained (tbl : MemTable) (drained : List Line) : List Line :=
  sort_lines tbl drained

/-- `HashMap`-style insert for the cell environment (keys are unique by
construction): overwrite the binding in place or append. -/
def envInsert : Env → String → String → Env
  | [], k, v => [(k, v)]
  | p :: rest, k, v => if p.1 = k then (k, v) :: rest else p :: envInsert rest k v

/-- The fresh `column → cell` map built per row (`mem_table.rs:508`,
`sstable.rs:63`). -/
def rowEnv (columns : List String) (cells : List String) : Env :=
  columns.enum.foldl (fun env p => envInsert env p.2 (cells.getD p.1 "")) []

/-- Handling of one memtable row inside `MemTable::find_rows`
(`mem_table.rs:504`): tombstones are emitted unconditionally, other rows only
when the predicate holds. -/
def find_rows_row (tbl : MemTable) (conditions : Clause) (need_ts : Bool) (key : Nat)
    (row : List String) : Except Nat (List (Nat × List String)) :=
  let time_stamp := row.getLastD ""
  let cells := row.dropLast
  if is_tombstone cells then
    .ok [(key, if need_ts then cells ++ [time_stamp] else cells)]
  else
    match meets_conditions (rowEnv tbl.columns cells) conditions with
    | .ok true => .ok [(key, if need_ts then cells ++ [time_stamp] else cells)]
    | .ok false => .ok []
    | .error _ => .error 507

/-- Body of the per-row loop of `MemTable::find_rows` (`mem_table.rs:492`):
`get_row` strips the leading token from each row; hits accumulate. -/
def find_rows_step (tbl : MemTable) (conditions : Clause) (need_ts : Bool) (key : Nat)
    (acc : List (Nat × List String)) (row : Line) : Except Nat (List (Nat × List String)) := do
  let r ← find_rows_row tbl conditions need_ts key (row.drop 1)
  pure (acc ++ r)

def find_rows_core (tbl : MemTable) (conditions : Clause) (need_ts : Bool) :
    List (Nat × List Line) → Except Nat (List (Nat × List String))
  | [] => .ok []
  | (key, rows) :: rest => do
    let rs ← rows.foldlM (find_rows_step tbl conditions need_ts key) []
    let more ← find_rows_core tbl conditions need_ts rest
    pure (rs ++ more)

def find_rows (tbl : MemTable) (conditions : Clause) (need_ts : Bool) :
    Except Nat (List (Nat × List String)) := do
  let r ← find_rows_core tbl conditions need_ts tbl.data
  pure ((0, tbl.columns) :: r)

/-- `clean_rows_select` (`mem_table.rs:830`). -/
def clean_rows_select (rows : List (Nat × List String)) : List (List String) :=
  rows.map Prod.snd

/-- Body of the per-line loop of `SSTable::execute_select` (`sstable.rs:34`):
keep the token-stripped, timestamp-carrying suffix of every line that meets
the predicate. -/
def sstable_select_step (conditions : Clause) (columns : List String)
    (acc : List (Nat × List String)) (line : Line) : Except Nat (List (Nat × List String)) := do
  let time_stamp_line := line.drop 1
  let interior := line.dropLast.drop 1
  let id := (parseU128 (line.getD 0 "")).getD 0
  match meets_conditions (rowEnv columns interior) conditions with
  | .ok true => pure (acc ++ [(id, time_stamp_line)])
  | .ok false => pure acc
  | .error _ => throw 575

def sstable_execute_select (fileLines : List Line) (conditions : Clause)
    (columns : List String) : Except Nat (List (Nat × List String)) :=
  fileLines.foldlM (sstable_select_step conditions columns) []

/-- The per-line decision of `SSTable::execute_select` separated from the
accumulator: the hit contributed by one line (empty when the predicate
fails). -/
def sstable_select_one (conditions : Clause) (columns : List String) (line : Line) :
    Except Nat (List (Nat × List String)) :=
  match meets_conditions (rowEnv columns (line.dropLast.drop 1)) conditions with
  | .ok true => .ok [((parseU128 (line.getD 0 "")).getD 0, line.drop 1)]
  | .ok false => .ok []
  | .error _ => .error 575

/-- `MemTable::get_newest` (`mem_table.rs:356`): skip the header line, then
newest line per **first cell** (`line[0]`). -/
def get_newest (lines : List Line) : List Line :=
  match lines with
  | [] => []
  | _ :: rest => (rest.foldl (upsertNewest (fun l => l.getD 0 "")) []).map (fun p => p.2.2)

/-- `get_position` (`sstable.rs:241`): first column whose lower-casing equals
the keyword. -/
def get_position (vec : List String) (keyword : String) : Except Nat Nat :=
  match vec.findIdx? (fun t => lowerStr t = keyword) with
  | some pos => .ok pos
  | none => .error 582

/-- The `sort_by_columns` comparator (`sstable.rs:209`): first differing cell
among the chosen positions, by string comparison. -/
def rowsCmpAt (positions : List Nat) (a b : List String) : Ordering :=
  match positions with
  | [] => .eq
  | p :: ps =>
    match strCmp (a.getD p "") (b.getD p "") with
    | .eq => rowsCmpAt ps a b
    | o => o

def rowsLeAsc (positions : List Nat) (a b : List String) : Prop :=
  rowsCmpAt positions a b ≠ .gt

def rowsLeDesc (positions : List Nat) (a b : List String) : Prop :=
  rowsCmpAt positions b a ≠ .gt

instance (positions : List Nat) (a b : List String) : Decidable (rowsLeAsc positions a b) := by
  unfold rowsLeAsc; infer_instance

instance (positions : List Nat) (a b : List String) : Decidable (rowsLeDesc positions a b) := by
  unfold rowsLeDesc; infer_instance

/-- `sort_by_columns` (`sstable.rs:190`).  An empty `order` makes the source
panic on `order.last().unwrap()`; the panic is modelled by error 999. -/
def sort_by_columns (order : List String) (chosen : List (List String))
    (file_columns : List String) : Except Nat (List (List String)) := do
  if order = [] then throw 999
  let sup_limit := if order.length = 1 then 1 else order.length - 1
  let positions ← (order.take sup_limit).mapM (get_position file_columns)
  let order2 := if file_columns.contains (order.getLastD "") then order ++ ["asc"] else order
  if order2.getLastD "" = "asc" then
    pure (chosen.insertionSort (rowsLeAsc positions))
  else if lowerStr (order2.getD 1 "") = "desc" then
    pure (chosen.insertionSort (rowsLeDesc positions))
  else
    throw 581

/-- `field_filter` (`mem_table.rs:857`): project each row to the selected
columns' indices, re-appending the trailing timestamp when requested. -/
def field_filter (data : List (List String)) (columns : List String)
    (selected_columns : List String) (need_ts : Bool) : Except Nat (List (List String)) := do
  let indices ← selected_columns.mapM (fun col =>
    match columns.findIdx? (fun c => c = col) with
    | some i => pure i
    | none => throw 509)
  pure (data.map (fun row =>
    indices.map (fun i => row.getD i "") ++ if need_ts then [row.getLastD ""] else []))

/-- `MemTable::execute_select` (`mem_table.rs:395`), faithfully staged:
memtable rows (with header), `*` substitution, SSTable rows, newest-per-first-
cell deduplication, ordering, tombstone masking, projection, header. -/
def execute_select (tbl : MemTable) (conditions : Clause) (selected_columns0 : List String)
    (order : List String) (need_ts include_tombstones : Bool) :
    Except Nat (List (List String)) := do
  let mem ← find_rows tbl conditions true
  let result := clean_rows_select mem
  let selected_columns := if selected_columns0 = ["*"] then tbl.columns else selected_columns0
  let sst ← sstable_execute_select tbl.sstable conditions selected_columns
  let result := result ++ clean_rows_select sst
  let filtered0 := get_newest result
  let filtered1 ←
    if order ≠ [] then
      match sort_by_columns order filtered0 tbl.columns with
      | .ok r => pure r
      | .error _ => throw 504
    else
      match sort_by_columns (tbl.clustering_key.map Prod.fst) filtered0 tbl.columns with
      | .ok r => pure r
      | .error _ => throw 505
  let filtered_lines :=
    if include_tombstones then filtered1
    else filtered1.filter (fun row => !(row.any (fun x => x = "X")))
  if selected_columns.length = 1 ∧ selected_columns.getD 0 "" = "*" then
    if need_ts then
      pure ((tbl.columns ++ ["timestamp"]) :: filtered_lines)
    else
      pure ((tbl.columns :: filtered_lines).map (fun row => row.dropLast))
  else if selected_columns.length = 1 then
    throw 506
  else
    let filtered ← field_filter filtered_lines tbl.columns selected_columns need_ts
    pure (selected_columns :: filtered)

/-- Modelled from the spec (§3 data model): the logical primary-key tuple of a
stored line — partition-key cells (column index shifted past the token) then
clustering-key cells (whose stored indices already account for the token).
Used only to state the claims about compaction. -/
def pkTuple (tbl : MemTable) (line : Line) : List String :=
  tbl.partition_key.map (fun p => line.getD (p.2 + 1) "") ++
    tbl.clustering_key.map (fun p => line.getD p.2 "")

/-- Modelled from the spec (§3 data model): the positions, within a returned
data row laid out by column order, of the non-key columns — those that belong
neither to the partition key (stored index = column index) nor to the
clustering key (stored index = column index + 1). Used only to state the
tombstone-masking claim. -/
def nonKeyIdx (tbl : MemTable) : List Nat :=
  (List.range tbl.columns.length).filter (fun i =>
    !(tbl.partition_key.any (fun p => p.2 = i) ||
      tbl.clustering_key.any (fun p => p.2 = i + 1)))

/-- The merge-and-deduplicate stage of `MemTable::execute_select`
(`mem_table.rs:404-421`, for a `SELECT *`): memtable hits, then SSTable hits,
then newest-per-first-cell — the row set *before* ordering, tombstone
filtering and projection. -/
def select_merged (tbl : MemTable) (conditions : Clause) :
    Except Nat (List (List String)) := do
  let mem ← find_rows tbl conditions true
  let sst ← sstable_execute_select tbl.sstable conditions tbl.columns
  pure (get_newest (clean_rows_select mem ++ clean_rows_select sst))

/-! ## Consistent-hash ring — `src/server/hashring.rs`

The `BTreeMap<u128, String>` is a key-sorted association list; MurmurHash3 is
abstracted into an explicit `hash` argument (the source pins it to
`murmur3_x64_128`, whose only relevant property here is being a fixed function
into the token space). -/

structure HashRing where
  node_ring : List (Nat × String)
  quantity : Nat
deriving DecidableEq, Repr

/-- `BTreeMap::insert`: ordered insert, replacing an equal key. -/
def btreeInsert (k : Nat) (v : String) : List (Nat × String) → List (Nat × String)
  | [] => [(k, v)]
  | (k', v') :: rest =>
    if k < k' then (k, v) :: (k', v') :: rest
    else if k = k' then (k, v) :: rest
    else (k', v') :: btreeInsert k v rest

/-- `BTreeMap::remove` (dropping the binding for `k`, if any). -/
def btreeRemove (k : Nat) : List (Nat × String) → List (Nat × String)
  | [] => []
  | (k', v') :: rest => if k = k' then rest else (k', v') :: btreeRemove k rest

def btreeLookup (k : Nat) : List (Nat × String) → Option String
  | [] => none
  | (k', v') :: rest => if k = k' then some v' else btreeLookup k rest

/-- `format!("{}-{}", node, i)`. -/
def vnodeName (node : String) (i : Nat) : String := node ++ "-" ++ toString i

/-- `HashRing::add_node` (`hashring.rs:34`): skip if the address already owns
a token, otherwise insert the 32 virtual-node tokens and bump the physical
count. -/
def HashRing.add_node (h : String → Nat) (ring : HashRing) (node : String) : HashRing :=
  if ring.node_ring.any (fun p => p.2 = node) then ring
  else
    { node_ring :=
        (List.range 32).foldl (fun m i => btreeInsert (h (vnodeName node i)) node m)
          ring.node_ring
      quantity := ring.quantity + 1 }

/-- `HashRing::remove_node` (`hashring.rs:47`): remove the 32 virtual-node
tokens and decrement the (usize) physical count. -/
def HashRing.remove_node (h : String → Nat) (ring : HashRing) (node : String) : HashRing :=
  { node_ring :=
      (List.range 32).foldl (fun m i => btreeRemove (h (vnodeName node i)) m) ring.node_ring
    quantity := usizePred ring.quantity }

/-- `node_ring.range((Excluded(key), Included(last)))`: the entries whose
token exceeds `key` (`last` is the maximal token, so the upper bound is
vacuous). -/
def afterKey (ring : List (Nat × String)) (key : Nat) : List (Nat × String) :=
  ring.filter (fun e => key < e.1)

/-- The `while nodes.len() < rf - 1` walk of `HashRing::get_replicas`
(`hashring.rs:212`), with explicit fuel; `none` means the fuel ran out (the
source loop would still be running).  Each iteration builds
`range((Excluded(key), Included(last)))` where `last` is the maximal token:
`BTreeMap::range` **panics** when its start bound exceeds its end bound, so a
key above `last` aborts the process — the panic is modelled by error 999.
Only at `key = last` is the range empty, and the walk wraps to the head. -/
def replicasLoop (ring : List (Nat × String)) (localAddr : String) (m : Nat) :
    Nat → Nat → List String → Option (Except Nat (List String))
  | 0, _, _ => none
  | fuel + 1, key, nodes =>
    if nodes.length < m then
      match ring.getLast? with
      | none => some (.error 580)
      | some last =>
        if last.1 < key then some (.error 999)
        else
          match afterKey ring key with
          | e :: _ =>
            replicasLoop ring localAddr m fuel e.1
              (if ¬nodes.contains e.2 ∧ e.2 ≠ localAddr then nodes ++ [e.2] else nodes)
          | [] =>
            match ring.head? with
            | some e =>
              replicasLoop ring localAddr m fuel e.1
                (if ¬nodes.contains e.2 ∧ e.2 ≠ localAddr then nodes ++ [e.2] else nodes)
            | none => replicasLoop ring localAddr m fuel key nodes
    else some (.ok nodes)

/-- `HashRing::get_replicas` (`hashring.rs:197`): the guard compares the
**token** count minus one (usize arithmetic) against `rf`, then walks the
ring. -/
def get_replicas (ring : List (Nat × String)) (fuel : Nat) (key : Nat) (rf : Nat)
    (localAddr : String) : Option (Except Nat (List String)) :=
  if usizePred ring.length < rf then some (.error 543)
  else replicasLoop ring localAddr (usizePred rf) fuel key []

/-! ## CREATE TABLE parser — `src/protocol/query_parser/parser_create.rs` and
`src/protocol/query_parser/parser_utils.rs`

Rust `String` manipulation is modelled on `List Char`; a token is the list of
its characters. -/

/-- `str::split(sep)` for a one-character separator. -/
def splitOnC (sep : Char) : List Char → List (List Char)
  | [] => [[]]
  | c :: cs =>
    if c = sep then [] :: splitOnC sep cs
    else
      match splitOnC sep cs with
      | w :: ws => (c :: w) :: ws
      | [] => [[c]]

/-- Helper for `str::split_inclusive`: re-attach the separator to every
segment but the last, dropping an empty trailing segment. -/
def joinInc (sep : Char) : List (List Char) → List (List Char)
  | [] => []
  | [w] => if w = [] then [] else [w]
  | w :: ws => (w ++ [sep]) :: joinInc sep ws

/-- `str::split_inclusive(sep)` for a one-character separator. -/
def splitIncC (sep : Char) (s : List Char) : List (List Char) :=
  joinInc sep (splitOnC sep s)

/-- `str::trim_end_matches(c)`: strip every trailing `c`. -/
def trimEndC (c : Char) (s : List Char) : List Char :=
  (s.reverse.dropWhile (fun x => x = c)).reverse

/-- `str::trim_matches(c)`: strip every leading and trailing `c`. -/
def trimMatchesC (c : Char) (s : List Char) : List Char :=
  (trimEndC c s).dropWhile (fun x => x = c)

/-- The inner loop over the `")"`-split parts of `split_par`
(`parser_utils.rs:13`): push each non-empty part (semicolons trimmed), with a
`")"` token between consecutive parts. -/
def pushParts : List (List Char) → List (List Char)
  | [] => []
  | [s] => if s = [] then [] else [trimEndC ';' s]
  | s :: rest => (if s = [] then [] else [trimEndC ';' s]) ++ [')'] :: pushParts rest

/-- `split_par` (`parser_utils.rs:4`): split every word around parentheses,
keeping them as their own tokens. -/
def split_par (vec : List (List Char)) : List (List Char) :=
  vec.flatMap (fun elem => (splitIncC '(' elem).flatMap (fun part => pushParts (splitOnC ')' part)))

/-- The mutable state of the `parse_create` token loop (`parser_create.rs:7`). -/
structure CreateSt where
  table_name : List Char
  columns_type : List (List Char × List Char)
  primary_key : List (List Char)
  clustering_key : List (List Char)
  index_table : Option Nat
  index_lpar : Option Nat
  index_lpar2 : Option Nat
  index_key : Option Nat
  vec_columns : List (List Char)
deriving DecidableEq, Repr

def CreateSt.init : CreateSt :=
  ⟨[], [], [], [], none, none, none, none, []⟩

def upperC (w : List Char) : List Char := w.map Char.toUpper

/-- One iteration of the `parse_create` token loop (`parser_create.rs:17`),
an exact translation of its `if`/`else if` chain. -/
def createStep (st : CreateSt) (i : Nat) (word : List Char) : CreateSt :=
  if upperC word = "TABLE".data then { st with index_table := some i }
  else if st.index_table.isSome then
    let i_table := st.index_table.getD 0
    let st' := if i = i_table + 1 then { st with table_name := word } else st
    { st' with index_table := none }
  else if word = ['('] ∧ st.index_key = none then { st with index_lpar := some i }
  else if st.index_lpar.isSome ∧ st.index_key = none then
    if word = "PRIMARY".data then { st with index_lpar := none }
    else
      let vc := st.vec_columns ++ [trimEndC ',' word]
      if vc.length = 2 then
        { st with
          columns_type := st.columns_type ++ [(vc.getD 0 [], vc.getD 1 [])]
          vec_columns := [] }
      else { st with vec_columns := vc }
  else if upperC word = "KEY".data then { st with index_key := some i }
  else if st.index_key.isSome ∧ word = ['('] ∧ st.index_lpar = none then
    { st with index_lpar := some i }
  else if st.index_lpar.isSome ∧ st.index_key.isSome then
    if word = ['('] then { st with index_lpar2 := some i }
    else if st.index_lpar2.isSome then
      if trimMatchesC ',' word = [')'] then { st with index_lpar2 := none }
      else { st with primary_key := st.primary_key ++ [trimEndC ',' word] }
    else if word ≠ [')'] then
      { st with clustering_key := st.clustering_key ++ [trimEndC ',' word] }
    else st
  else st

/-- The `Query::CreateTable` payload (`query.rs`), for the fields
`parse_create` fills in. -/
structure CreateTableQ where
  table_name : List Char
  columns_type : List (List Char × List Char)
  primary_key : List (List Char)
  clustering_key : List (List Char)
deriving DecidableEq, Repr

/-- `parse_create` (`parser_create.rs:5`): split the words around
parentheses, run the token loop, drop empty key names (`retain`); the source
always returns `Ok`. -/
def parse_create (query : List (List Char)) : CreateTableQ :=
  let query_split := split_par query
  let st := (query_split.enum).foldl (fun st p => createStep st p.1 p.2) CreateSt.init
  { table_name := st.table_name
    columns_type := st.columns_type
    primary_key := st.primary_key.filter (fun x => x ≠ [])
    clustering_key := st.clustering_key.filter (fun x => x ≠ []) }

/-- The indexed token loop of `parse_create`, in recursive form (used to step
through the tokens one at a time). -/
def createRun (st : CreateSt) (i : Nat) : List (List Char) → CreateSt
  | [] => st
  | w :: ws => createRun (createStep st i w) (i + 1) ws

/-- A well-formed identifier token: nonempty, free of the parser's structural
characters, and not one of the keywords the token loop reacts to. -/
def identTok (w : List Char) : Prop :=
  w ≠ [] ∧ (∀ ch ∈ w, ch ≠ '(' ∧ ch ≠ ')' ∧ ch ≠ ',' ∧ ch ≠ ';') ∧
  upperC w ≠ "TABLE".data ∧ upperC w ≠ "KEY".data ∧ w ≠ "PRIMARY".data

instance (w : List Char) : Decidable (identTok w) := by
  unfold identTok
  infer_instance

/-! ## Auxiliary definitions for the ring claims -/

/-- The endpoint column of the ring (each physical endpoint appears once per
owned token). -/
def ringValues (ring : List (Nat × String)) : List String := ring.map Prod.snd

/-- The number of distinct physical endpoints of a ring (`quantity`'s
documented meaning). -/
def physCount (ring : List (Nat × String)) : Nat := ((ring.map Prod.snd).dedup).length

/-- The distinct endpoints other than the excluded one — the addresses the
replica walk may collect. -/
def goodVals (ring : List (Nat × String)) (exclude : String) : List String :=
  ((ring.map Prod.snd).dedup).filter (fun v => v ≠ exclude)

/-- One pass of the replica walk over a list of ring entries (proof script of
`replicasLoop`: the loop visits exactly the entries after the key and then
cycles through the ring). -/
def runPass (localAddr : String) (m : Nat) : List (Nat × String) → List String → List String
  | [], nodes => nodes
  | e :: es, nodes =>
    if nodes.length < m then
      runPass localAddr m es
        (if ¬nodes.contains e.2 ∧ e.2 ≠ localAddr then nodes ++ [e.2] else nodes)
    else nodes

/-- One physical endpoint `"a"` owning tokens `0..31` — 32 virtual tokens, a
single endpoint. -/
def ringC3 : List (Nat × String) := (List.range 32).map (fun i => (i, "a"))

/-- Invariant of the collected replica list: pairwise distinct, each a ring
endpoint other than the excluded one, never longer than the target. -/
def PassInv (ring : List (Nat × String)) (exclude : String) (m : Nat)
    (nodes : List String) : Prop :=
  nodes.Nodup ∧ (∀ x ∈ nodes, x ∈ ringValues ring ∧ x ≠ exclude) ∧ nodes.length ≤ m

/-- Two physical endpoints `"a"`, `"b"`, each owning 32 tokens. -/
def ringC2 : List (Nat × String) :=
  (List.range 32).map (fun i => (i, "a")) ++ (List.range 32).map (fun i => (32 + i, "b"))

/-! ## Concrete instances used by counterexamples and witnesses -/

/-- A short RFC3339 timestamp (the older one). -/
def tsA : String := "2024-01-01T00:00:00+00:00"

/-- A short RFC3339 timestamp (the newer one). -/
def tsB : String := "2024-01-02T00:00:00+00:00"

/-- Two-column table, partition key `b`, clustering key `b`. -/
def tblC1 : MemTable :=
  { MemTable.new [("a", "int"), ("b", "int")] ["b"] ["b"] [] with
    data := [(5, [["5", "1", "7", tsA], ["5", "2", "7", tsB]])] }

/-- Two-column table `id, v`, holding an old tombstone and a newer live row
with the same first cell. -/
def tblC5 : MemTable :=
  { MemTable.new [("id", "int"), ("v", "text")] ["id"] ["v"] [] with
    data := [(5, [["5", "1", "X", tsA], ["5", "1", "b", tsB]])] }

/-- Two-row table whose rows have distinct tokens, so the `sort_lines`
comparator has no ties. -/
def tblC7 : MemTable :=
  { MemTable.new [("a", "int"), ("b", "int")] ["b"] ["b"] [] with
    data := [(5, [["5", "1", "7", tsA]]), (6, [["6", "2", "8", tsB]])] }

/-- Well-formedness of the `BTreeMap` representation: strictly increasing
keys. -/
def keysSorted (l : List (Nat × String)) : Prop := l.Pairwise (fun a b => a.1 < b.1)

instance (l : List (Nat × String)) : Decidable (keysSorted l) := by
  unfold keysSorted
  infer_instance

/-- Invariant of the newest-per-key `HashMap` accumulation: unique keys, each
entry holds a processed line that is newest for its key, and every processed
line's key has an entry. -/
def NewestAcc (kf : Line → String) (processed : List Line)
    (acc : List (String × (Nat × Line))) : Prop :=
  (acc.map Prod.fst).Nodup ∧
  (∀ e ∈ acc, kf e.2.2 = e.1 ∧ e.2.1 = lineTs e.2.2 ∧ e.2.2 ∈ processed ∧
    ∀ l' ∈ processed, kf l' = e.1 → lineTs l' ≤ e.2.1) ∧
  (∀ l' ∈ processed, ∃ e ∈ acc, e.1 = kf l')

/-! ## Lemmas and claim theorems -/

/-- Lookup after a `mapInsert` at the inserted key. -/
theorem mapLookup_mapInsert_self (m : List (String × EndpointState)) (k : String)
    (v : EndpointState) : mapLookup (mapInsert m k v) k = some v := by
  induction m with
  | nil => simp [mapInsert, mapLookup]
  | cons p rest ih =>
    by_cases hp : p.1 = k
    · simp [mapInsert, mapLookup, hp]
    · simp [mapInsert, mapLookup, hp, ih]

/-- Lookup after a `mapInsert` at a different key. -/
theorem mapLookup_mapInsert_ne (m : List (String × EndpointState)) (k b : String)
    (v : EndpointState) (hb : b ≠ k) : mapLookup (mapInsert m k v) b = mapLookup m b := by
  induction m with
  | nil => simp [mapInsert, mapLookup, Ne.symm hb]
  | cons p rest ih =>
    by_cases hp : p.1 = k
    · rw [mapInsert, if_pos hp, mapLookup, mapLookup, if_neg (Ne.symm hb),
        if_neg (fun h => hb (h.symm.trans hp))]
    · rw [mapInsert, if_neg hp]
      by_cases hpb : p.1 = b
      · rw [mapLookup, if_pos hpb, mapLookup, if_pos hpb]
      · rw [mapLookup, if_neg hpb, mapLookup, if_neg hpb, ih]

/-- C8: a buffer beginning with the 4-byte big-endian int `-1` decodes (as a
protocol value) to null, one beginning with `-2` decodes to the distinct
not-set value. -/
theorem C8_value_negative_lengths (rest : List Nat) :
    read_value (255 :: 255 :: 255 :: 255 :: rest) = .ok (.Null, rest) ∧
    read_value (255 :: 255 :: 255 :: 254 :: rest) = .ok (.NotSet, rest) ∧
    Value.Null ≠ Value.NotSet :=
  ⟨rfl, rfl, by decide⟩

/-- C4 counterexample: for the non-local address `b`, the stored state with
digest `(gen 5, hb 5)` is strictly newer than the incoming `(gen 0, hb 0)`,
yet `update_endpoint_state` replaces it — the update is not conditioned on
the remote digest being newer. -/
theorem C4_counterexample :
    digestNewer (EndpointState.to_digest ⟨5, 5, .Up, "b"⟩)
        (EndpointState.to_digest ⟨0, 0, .Down, "b"⟩) ∧
    update_endpoint_state [("b", ⟨5, 5, .Up, "b"⟩)] ⟨0, 0, .Down, "b"⟩ "a" =
      [("b", ⟨0, 0, .Down, "b"⟩)] := by
  constructor
  · simp [digestNewer, EndpointState.to_digest]
  · rfl

/-- C4 as amended: `update_endpoint_state` stores the incoming state for its
address unconditionally — regardless of digest order — except in the single
case where the address is the node's own and the stored heartbeat (returned
by the source's `get_generation`) strictly exceeds the incoming heartbeat;
entries of other addresses are untouched. -/
theorem C4_update_endpoint_state_rule (m : List (String × EndpointState))
    (es : EndpointState) (localAddr : String) :
    (∀ b, b ≠ es.address →
      mapLookup (update_endpoint_state m es localAddr) b = mapLookup m b) ∧
    ((es.address = localAddr ∧
        ∃ a, mapLookup m es.address = some a ∧ es.heartbeat < a.heartbeat) →
      update_endpoint_state m es localAddr = m) ∧
    (¬(es.address = localAddr ∧
        ∃ a, mapLookup m es.address = some a ∧ es.heartbeat < a.heartbeat) →
      mapLookup (update_endpoint_state m es localAddr) es.address = some es) := by
  refine ⟨?_, ?_, ?_⟩
  · intro b hb
    cases hl : mapLookup m es.address with
    | none =>
      simp only [update_endpoint_state, hl]
      exact mapLookup_mapInsert_ne m es.address b es hb
    | some actual =>
      simp only [update_endpoint_state, hl]
      by_cases hcond : es.address = localAddr ∧ actual.get_generation > es.get_generation
      · rw [if_pos hcond]
      · rw [if_neg hcond]
        exact mapLookup_mapInsert_ne m es.address b es hb
  · rintro ⟨hloc, a, hla, hlt⟩
    simp only [update_endpoint_state, hla]
    rw [if_pos ⟨hloc, hlt⟩]
  · intro hnot
    cases hl : mapLookup m es.address with
    | none =>
      simp only [update_endpoint_state, hl]
      exact mapLookup_mapInsert_self m es.address es
    | some actual =>
      have hcond : ¬(es.address = localAddr ∧ actual.get_generation > es.get_generation) := by
        intro h
        exact hnot ⟨h.1, actual, hl, h.2⟩
      simp only [update_endpoint_state, hl]
      rw [if_neg hcond]
      exact mapLookup_mapInsert_self m es.address es

/-- C4 witness: the amended update rule applied at a concrete map. -/
theorem C4_update_endpoint_state_rule_witness :
    mapLookup (update_endpoint_state [("b", ⟨5, 5, .Up, "b"⟩)] ⟨2, 9, .Up, "b"⟩ "a") "c" =
        mapLookup [("b", ⟨5, 5, .Up, "b"⟩)] "c" ∧
    mapLookup (update_endpoint_state [("b", ⟨5, 5, .Up, "b"⟩)] ⟨2, 9, .Up, "b"⟩ "a") "b" =
        some ⟨2, 9, .Up, "b"⟩ := by
  have h := C4_update_endpoint_state_rule [("b", ⟨5, 5, .Up, "b"⟩)] ⟨2, 9, .Up, "b"⟩ "a"
  exact ⟨h.1 "c" (by decide), h.2.2 (by decide)⟩

/-- C9 counterexample: in the environment declaring both `a` and `b` (both
bound to `"1"`), the equality term `a = b` relates two declared column names,
yet evaluation returns `Ok(true)` instead of rejecting it. -/
theorem C9_counterexample :
    Env.containsKey [("a", "1"), ("b", "1")] "a" = true ∧
    Env.containsKey [("a", "1"), ("b", "1")] "b" = true ∧
    meets_conditions [("a", "1"), ("b", "1")] (.Term (.Equal "a" "b")) = .ok true := by
  decide

/-- C9 as amended: equality evaluation errors exactly when **neither** operand
is a declared column; when both are declared their cell values are compared,
and when at least one is declared the result is an `Ok` boolean. -/
theorem C9_equality_evaluation (env : Env) (v1 v2 : String) :
    (env.get v1 = none ∧ env.get v2 = none →
      meets_conditions env (.Term (.Equal v1 v2)) = .error 576) ∧
    ((env.get v1).isSome ∨ (env.get v2).isSome →
      ∃ b, meets_conditions env (.Term (.Equal v1 v2)) = .ok b) ∧
    ((env.get v1).isSome ∧ (env.get v2).isSome →
      meets_conditions env (.Term (.Equal v1 v2)) = .ok (env.get v1 = env.get v2)) := by
  refine ⟨?_, ?_, ?_⟩
  · rintro ⟨h1, h2⟩
    simp [meets_conditions, meets_relation, Env.containsKey, h1, h2]
  · intro h
    cases h1 : env.get v1 with
    | some r1 =>
      cases h2 : env.get v2 with
      | some r2 =>
        exact ⟨decide (r1 = r2), by simp [meets_conditions, meets_relation, Env.containsKey, h1, h2]⟩
      | none =>
        exact ⟨decide (r1 = v2), by simp [meets_conditions, meets_relation, Env.containsKey, h1, h2]⟩
    | none =>
      cases h2 : env.get v2 with
      | some r2 =>
        exact ⟨decide (r2 = v1), by simp [meets_conditions, meets_relation, Env.containsKey, h1, h2]⟩
      | none =>
        rw [h1, h2] at h
        simp at h
  · rintro ⟨h1, h2⟩
    simp [meets_conditions, meets_relation, Env.containsKey, Option.isSome_iff_exists] at h1 h2
    obtain ⟨r1, h1⟩ := h1
    obtain ⟨r2, h2⟩ := h2
    simp [meets_conditions, meets_relation, Env.containsKey, h1, h2]

/-- C9 witness: the amended evaluation rule applied to a concrete
two-column environment. -/
theorem C9_equality_evaluation_witness :
    meets_conditions [("a", "1"), ("b", "2")] (.Term (.Equal "a" "b")) = .ok false := by
  have h := (C9_equality_evaluation [("a", "1"), ("b", "2")] "a" "b").2.2 (by decide)
  simpa using h

set_option maxRecDepth 8192 in
/-- C5 counterexample: with tombstones included, the stored all-`"X"`-in-non-
key-cells row (`v` is the only non-key column) is **not** among the results —
it is shadowed by the newer live row sharing its first data cell. -/
theorem C5_counterexample :
    tblC5.data = [(5, [["5", "1", "X", tsA], ["5", "1", "b", tsB]])] ∧
    is_tombstone ["1", "X"] = true ∧
    execute_select tblC5 .Placeholder ["*"] [] false true = .ok [["id", "v"], ["1", "b"]] ∧
    (["1", "X"] : List String) ∉ [["id", "v"], ["1", "b"]] := by
  refine ⟨rfl, rfl, by decide, by decide⟩

set_option maxRecDepth 8192 in
/-- C1 counterexample: compaction of this memtable leaves **two** distinct
rows with the same logical primary-key tuple in the rewritten SSTable,
because `filter_lines` groups by the first data cell rather than the
primary-key tuple. -/
theorem C1_counterexample :
    compact_sstable tblC1 = [["5", "1", "7", tsA], ["5", "2", "7", tsB]] ∧
    pkTuple tblC1 ["5", "1", "7", tsA] = pkTuple tblC1 ["5", "2", "7", tsB] ∧
    (["5", "1", "7", tsA] : Line) ≠ ["5", "2", "7", tsB] := by
  refine ⟨by decide, by decide, by decide⟩

/-! ## B-tree map lemmas for the ring -/

theorem btreeLookup_none_of_forall {l : List (Nat × String)} {k : Nat}
    (h : ∀ e ∈ l, e.1 ≠ k) : btreeLookup k l = none := by
  induction l with
  | nil => rfl
  | cons p rest ih =>
    rw [btreeLookup, if_neg (fun hk => h p (by simp) hk.symm)]
    exact ih (fun e he => h e (by simp [he]))

theorem btreeLookup_insert_self (l : List (Nat × String)) (k : Nat) (v : String) :
    btreeLookup k (btreeInsert k v l) = some v := by
  induction l with
  | nil => simp [btreeInsert, btreeLookup]
  | cons p rest ih =>
    by_cases hlt : k < p.1
    · simp [btreeInsert, hlt, btreeLookup]
    · by_cases heq : k = p.1
      · simp [btreeInsert, hlt, heq, btreeLookup]
      · simp [btreeInsert, hlt, heq, btreeLookup, Ne.symm heq, ih]

theorem btreeLookup_insert_ne (l : List (Nat × String)) (k b : Nat) (v : String)
    (hb : b ≠ k) : btreeLookup b (btreeInsert k v l) = btreeLookup b l := by
  induction l with
  | nil => simp [btreeInsert, btreeLookup, hb]
  | cons p rest ih =>
    by_cases hlt : k < p.1
    · simp only [btreeInsert, if_pos hlt]
      rw [btreeLookup, if_neg hb]
    · by_cases heq : k = p.1
      · simp only [btreeInsert, if_neg hlt, if_pos heq]
        rw [btreeLookup, if_neg hb, btreeLookup, if_neg (fun h => hb (h.trans heq.symm))]
      · simp only [btreeInsert, if_neg hlt, if_neg heq]
        by_cases hpb : b = p.1
        · rw [btreeLookup, if_pos hpb, btreeLookup, if_pos hpb]
        · rw [btreeLookup, if_neg hpb, btreeLookup, if_neg hpb, ih]

theorem btreeLookup_remove_self (l : List (Nat × String)) (k : Nat)
    (hs : keysSorted l) : btreeLookup k (btreeRemove k l) = none := by
  induction l with
  | nil => rfl
  | cons p rest ih =>
    rw [keysSorted, List.pairwise_cons] at hs
    by_cases heq : k = p.1
    · rw [btreeRemove, if_pos heq]
      exact btreeLookup_none_of_forall
        (fun e he => Nat.ne_of_gt (heq ▸ hs.1 e he))
    · rw [btreeRemove, if_neg heq, btreeLookup, if_neg heq]
      exact ih hs.2

theorem btreeLookup_remove_ne (l : List (Nat × String)) (k b : Nat)
    (hb : b ≠ k) : btreeLookup b (btreeRemove k l) = btreeLookup b l := by
  induction l with
  | nil => rfl
  | cons p rest ih =>
    by_cases heq : k = p.1
    · rw [btreeRemove, if_pos heq, btreeLookup, if_neg (heq ▸ hb)]
    · by_cases hpb : b = p.1
      · rw [btreeRemove, if_neg heq, btreeLookup, if_pos hpb, btreeLookup, if_pos hpb]
      · rw [btreeRemove, if_neg heq, btreeLookup, if_neg hpb, btreeLookup, if_neg hpb, ih]

theorem mem_btreeInsert {l : List (Nat × String)} {k : Nat} {v : String}
    {e : Nat × String} (he : e ∈ btreeInsert k v l) : e = (k, v) ∨ e ∈ l := by
  induction l with
  | nil => simpa [btreeInsert] using he
  | cons p rest ih =>
    by_cases hlt : k < p.1
    · rw [btreeInsert, if_pos hlt] at he
      rcases List.mem_cons.mp he with h | h
      · exact .inl h
      · exact .inr h
    · by_cases heq : k = p.1
      · rw [btreeInsert, if_neg hlt, if_pos heq] at he
        rcases List.mem_cons.mp he with h | h
        · exact .inl h
        · exact .inr (by simp [h])
      · rw [btreeInsert, if_neg hlt, if_neg heq] at he
        rcases List.mem_cons.mp he with h | h
        · exact .inr (by simp [h])
        · rcases ih h with h2 | h2
          · exact .inl h2
          · exact .inr (by simp [h2])

theorem keysSorted_insert (l : List (Nat × String)) (k : Nat) (v : String)
    (hs : keysSorted l) : keysSorted (btreeInsert k v l) := by
  induction l with
  | nil => simp [btreeInsert, keysSorted]
  | cons p rest ih =>
    rw [keysSorted, List.pairwise_cons] at hs
    by_cases hlt : k < p.1
    · rw [btreeInsert, if_pos hlt, keysSorted, List.pairwise_cons]
      refine ⟨?_, List.pairwise_cons.mpr hs⟩
      intro e he
      rcases List.mem_cons.mp he with h | h
      · rw [h]; exact hlt
      · exact hlt.trans (hs.1 e h)
    · by_cases heq : k = p.1
      · rw [btreeInsert, if_neg hlt, if_pos heq, keysSorted, List.pairwise_cons]
        exact ⟨fun e he => heq ▸ hs.1 e he, hs.2⟩
      · rw [btreeInsert, if_neg hlt, if_neg heq, keysSorted, List.pairwise_cons]
        refine ⟨?_, ih hs.2⟩
        intro e he
        rcases mem_btreeInsert he with h | h
        · rw [h]
          omega
        · exact hs.1 e h

theorem btreeRemove_sublist (l : List (Nat × String)) (k : Nat) :
    (btreeRemove k l).Sublist l := by
  induction l with
  | nil => simp [btreeRemove]
  | cons p rest ih =>
    by_cases heq : k = p.1
    · rw [btreeRemove, if_pos heq]
      exact List.sublist_cons_self p rest
    · rw [btreeRemove, if_neg heq]
      exact ih.cons₂ p

theorem keysSorted_remove (l : List (Nat × String)) (k : Nat)
    (hs : keysSorted l) : keysSorted (btreeRemove k l) :=
  hs.sublist (btreeRemove_sublist l k)

theorem btree_ext (l1 : List (Nat × String)) : ∀ l2, keysSorted l1 → keysSorted l2 →
    (∀ k, btreeLookup k l1 = btreeLookup k l2) → l1 = l2 := by
  induction l1 with
  | nil =>
    intro l2 _ _ h
    cases l2 with
    | nil => rfl
    | cons q s =>
      have h1 := h q.1
      simp [btreeLookup] at h1
  | cons p r ih =>
    intro l2 hs1 hs2 h
    cases l2 with
    | nil =>
      have h1 := h p.1
      simp [btreeLookup] at h1
    | cons q s =>
      rw [keysSorted, List.pairwise_cons] at hs1 hs2
      rcases Nat.lt_trichotomy p.1 q.1 with hlt | heqk | hgt
      · have hnone : btreeLookup p.1 (q :: s) = none := by
          refine btreeLookup_none_of_forall (fun e he => ?_)
          rcases List.mem_cons.mp he with h2 | h2
          · rw [h2]; omega
          · have := hs2.1 e h2; omega
        have h1 := h p.1
        rw [hnone] at h1
        simp [btreeLookup] at h1
      · have hL : btreeLookup p.1 (p :: r) = some p.2 := by simp [btreeLookup]
        have hR : btreeLookup p.1 (q :: s) = some q.2 := by simp [btreeLookup, heqk]
        have h1 : p.2 = q.2 := by
          have := (hL.symm.trans (h p.1)).trans hR
          exact Option.some.inj this
        have htl : r = s := by
          refine ih s hs1.2 hs2.2 (fun k => ?_)
          by_cases hk : k = p.1
          · subst hk
            rw [btreeLookup_none_of_forall (fun e he => by have := hs1.1 e he; omega),
              btreeLookup_none_of_forall (fun e he => by have := hs2.1 e he; omega)]
          · have hk2 : ¬k = q.1 := heqk ▸ hk
            have hkk := h k
            simp only [btreeLookup, if_neg hk, if_neg hk2] at hkk
            exact hkk
        have hpq : p = q := by
          obtain ⟨p1, p2⟩ := p
          obtain ⟨q1, q2⟩ := q
          simp only at heqk h1
          rw [heqk, h1]
        rw [hpq, htl]
      · have hnone : btreeLookup q.1 (p :: r) = none := by
          refine btreeLookup_none_of_forall (fun e he => ?_)
          rcases List.mem_cons.mp he with h2 | h2
          · rw [h2]; omega
          · have := hs1.1 e h2; omega
        have h1 := h q.1
        rw [hnone] at h1
        simp [btreeLookup] at h1

theorem lookup_foldl_insert (ks : List Nat) (a : String) (l : List (Nat × String)) (k : Nat) :
    btreeLookup k (ks.foldl (fun m kk => btreeInsert kk a m) l) =
      if k ∈ ks then some a else btreeLookup k l := by
  induction ks generalizing l with
  | nil => simp
  | cons kk rest ih =>
    rw [List.foldl_cons, ih]
    by_cases hk : k ∈ rest
    · simp [hk]
    · by_cases hkk : k = kk
      · simp [hk, hkk, btreeLookup_insert_self]
      · simp [hk, hkk, btreeLookup_insert_ne l kk k a hkk]

theorem keysSorted_foldl_insert (ks : List Nat) (a : String) (l : List (Nat × String))
    (hs : keysSorted l) :
    keysSorted (ks.foldl (fun m kk => btreeInsert kk a m) l) := by
  induction ks generalizing l with
  | nil => exact hs
  | cons kk rest ih => exact ih _ (keysSorted_insert l kk a hs)

theorem keysSorted_foldl_remove (ks : List Nat) (l : List (Nat × String))
    (hs : keysSorted l) :
    keysSorted (ks.foldl (fun m kk => btreeRemove kk m) l) := by
  induction ks generalizing l with
  | nil => exact hs
  | cons kk rest ih => exact ih _ (keysSorted_remove l kk hs)

theorem lookup_foldl_remove (ks : List Nat) (l : List (Nat × String)) (k : Nat)
    (hs : keysSorted l) :
    btreeLookup k (ks.foldl (fun m kk => btreeRemove kk m) l) =
      if k ∈ ks then none else btreeLookup k l := by
  induction ks generalizing l with
  | nil => simp
  | cons kk rest ih =>
    rw [List.foldl_cons, ih _ (keysSorted_remove l kk hs)]
    by_cases hk : k ∈ rest
    · simp [hk]
    · by_cases hkk : k = kk
      · simp [hk, hkk, btreeLookup_remove_self l kk hs]
      · simp [hk, hkk, btreeLookup_remove_ne l kk k hkk]

/-- C10: on a ring not containing address `a` and whose tokens do not collide
with the 32 virtual-node tokens of `a`, `remove_node` after `add_node` is the
identity: `add_node` inserts exactly those 32 tokens and bumps the physical
count, and `remove_node` removes exactly them and restores the count. -/
theorem C10_add_remove_node_identity (h : String → Nat) (R : HashRing) (a : String)
    (hnotin : ∀ p ∈ R.node_ring, p.2 ≠ a)
    (hfresh : ∀ i < 32, btreeLookup (h (vnodeName a i)) R.node_ring = none)
    (hs : keysSorted R.node_ring) (hq : R.quantity < 2 ^ 64) :
    (R.add_node h a).quantity = R.quantity + 1 ∧
    (R.add_node h a).remove_node h a = R := by
  obtain ⟨ring, q⟩ := R
  have hguard : ring.any (fun p => p.2 = a) = false := by
    rw [List.any_eq_false]
    intro p hp
    simpa using hnotin p hp
  have hadd : HashRing.add_node h ⟨ring, q⟩ a =
      ⟨(List.range 32).foldl (fun m i => btreeInsert (h (vnodeName a i)) a m) ring, q + 1⟩ := by
    simp only [HashRing.add_node]
    rw [if_neg (by simp [hguard])]
  refine ⟨by rw [hadd], ?_⟩
  rw [hadd]
  simp only [HashRing.remove_node]
  have hmap : ∀ (f : List (Nat × String) → Nat → List (Nat × String)) (l : List (Nat × String)),
      (List.range 32).foldl (fun m i => f m (h (vnodeName a i))) l =
        ((List.range 32).map (fun i => h (vnodeName a i))).foldl f l := by
    intro f l
    rw [List.foldl_map]
  have hq' : q < 2 ^ 64 := hq
  have hmq : usizePred (q + 1) = q := by
    simp only [usizePred]
    have he2 : q + 1 + (2 ^ 64 - 1) = q + 2 ^ 64 := by omega
    rw [he2, Nat.add_mod_right, Nat.mod_eq_of_lt hq']
  have hring :
      (List.range 32).foldl (fun m i => btreeRemove (h (vnodeName a i)) m)
        ((List.range 32).foldl (fun m i => btreeInsert (h (vnodeName a i)) a m) ring) = ring := by
    rw [hmap (fun m kk => btreeRemove kk m), hmap (fun m kk => btreeInsert kk a m)]
    set ks := (List.range 32).map (fun i => h (vnodeName a i)) with hks
    have hsi : keysSorted (ks.foldl (fun m kk => btreeInsert kk a m) ring) :=
      keysSorted_foldl_insert ks a ring hs
    refine btree_ext _ ring (keysSorted_foldl_remove ks _ hsi) hs (fun k => ?_)
    rw [lookup_foldl_remove ks _ k hsi, lookup_foldl_insert ks a ring k]
    by_cases hk : k ∈ ks
    · rw [if_pos hk]
      obtain ⟨i, hi, hik⟩ := List.mem_map.mp (hks ▸ hk)
      rw [← hik, hfresh i (List.mem_range.mp hi)]
    · rw [if_neg hk, if_neg hk]
  rw [hring, hmq]

/-- C10 witness: a one-node ring, a length-valued stand-in hash whose vnode
tokens avoid the existing token. -/
theorem C10_add_remove_node_identity_witness :
    ((⟨[(100, "b")], 1⟩ : HashRing).add_node String.length "a").quantity = 2 ∧
    ((⟨[(100, "b")], 1⟩ : HashRing).add_node String.length "a").remove_node String.length "a" =
      ⟨[(100, "b")], 1⟩ :=
  C10_add_remove_node_identity String.length ⟨[(100, "b")], 1⟩ "a"
    (by decide) (by decide) (by decide) (by decide)

/-! ## Newest-per-key accumulation lemmas (`filter_lines` / `get_newest`) -/

theorem eq_of_fst_eq {α β : Type} {l : List (α × β)}
    (h : (l.map Prod.fst).Nodup) {p q : α × β} (hp : p ∈ l) (hq : q ∈ l)
    (he : p.1 = q.1) : p = q := by
  induction l with
  | nil => cases hp
  | cons r rest ih =>
    rw [List.map_cons, List.nodup_cons] at h
    rcases List.mem_cons.mp hp with h1 | h1 <;> rcases List.mem_cons.mp hq with h2 | h2
    · rw [h1, h2]
    · exfalso
      apply h.1
      rw [h1] at he
      rw [he]
      exact List.mem_map.mpr ⟨q, h2, rfl⟩
    · exfalso
      apply h.1
      rw [h2] at he
      rw [← he]
      exact List.mem_map.mpr ⟨p, h1, rfl⟩
    · exact ih h.2 h1 h2

theorem NewestAcc_step (kf : Line → String) (processed : List Line)
    (acc : List (String × (Nat × Line))) (line : Line)
    (h : NewestAcc kf processed acc) :
    NewestAcc kf (processed ++ [line]) (upsertNewest kf acc line) := by
  obtain ⟨hnd, hent, hcov⟩ := h
  cases hf : acc.find? (fun p => p.1 = kf line) with
  | none =>
    have hnone : ∀ e ∈ acc, e.1 ≠ kf line := by
      intro e he
      simpa using List.find?_eq_none.mp hf e he
    simp only [upsertNewest, hf]
    refine ⟨?_, ?_, ?_⟩
    · rw [List.map_append, List.nodup_append]
      refine ⟨hnd, by simp, ?_⟩
      intro x hx
      obtain ⟨e, he, hex⟩ := List.mem_map.mp hx
      simp only [List.map_cons, List.map_nil, List.mem_cons, List.not_mem_nil]
      intro hc
      rcases hc with hc | hc
      · exact hnone e he (hex.trans hc)
      · cases hc
    · intro e he
      rcases List.mem_append.mp he with he1 | he1
      · obtain ⟨hk, ht, hm, hmax⟩ := hent e he1
        refine ⟨hk, ht, List.mem_append_left _ hm, ?_⟩
        intro l' hl' hkl'
        rcases List.mem_append.mp hl' with hl2 | hl2
        · exact hmax l' hl2 hkl'
        · rw [List.mem_singleton.mp hl2] at hkl'
          exact absurd hkl'.symm (hnone e he1)
      · rw [List.mem_singleton.mp he1]
        refine ⟨rfl, rfl, List.mem_append_right _ (by simp), ?_⟩
        intro l' hl' hkl'
        rcases List.mem_append.mp hl' with hl2 | hl2
        · obtain ⟨e', he', hek⟩ := hcov l' hl2
          exact absurd (hek.trans hkl') (hnone e' he')
        · rw [List.mem_singleton.mp hl2]
    · intro l' hl'
      rcases List.mem_append.mp hl' with hl2 | hl2
      · obtain ⟨e, he, hek⟩ := hcov l' hl2
        exact ⟨e, List.mem_append_left _ he, hek⟩
      · rw [List.mem_singleton.mp hl2]
        exact ⟨(kf line, (lineTs line, line)), List.mem_append_right _ (by simp), rfl⟩
  | some p =>
    have hp_mem : p ∈ acc := List.mem_of_find?_eq_some hf
    have hp_key : p.1 = kf line := by simpa using List.find?_some hf
    by_cases hts : p.2.1 < lineTs line
    · simp only [upsertNewest, hf, if_pos hts]
      have hfst : ∀ q : String × (Nat × Line),
          ((if q.1 = kf line then (q.1, (lineTs line, line)) else q)).1 = q.1 := by
        intro q
        by_cases hq : q.1 = kf line
        · rw [if_pos hq]
        · rw [if_neg hq]
      refine ⟨?_, ?_, ?_⟩
      · have h2 : List.map
            (Prod.fst ∘ fun q => if q.1 = kf line then (q.1, (lineTs line, line)) else q) acc =
            List.map Prod.fst acc := List.map_congr_left (fun q _ => hfst q)
        rw [List.map_map, h2]
        exact hnd
      · intro e he
        obtain ⟨q, hq, hqe⟩ := List.mem_map.mp he
        by_cases hqk : q.1 = kf line
        · have hqp : q = p := eq_of_fst_eq hnd hq hp_mem (hqk.trans hp_key.symm)
          rw [if_pos hqk] at hqe
          rw [← hqe]
          refine ⟨hqk.symm, rfl, List.mem_append_right _ (by simp), ?_⟩
          intro l' hl' hkl'
          rcases List.mem_append.mp hl' with hl2 | hl2
          · have hle : lineTs l' ≤ p.2.1 :=
              (hent p hp_mem).2.2.2 l' hl2 (by rw [hkl', hqp])
            show lineTs l' ≤ lineTs line
            omega
          · rw [List.mem_singleton.mp hl2]
        · rw [if_neg hqk] at hqe
          rw [← hqe]
          obtain ⟨hk, ht, hm, hmax⟩ := hent q hq
          refine ⟨hk, ht, List.mem_append_left _ hm, ?_⟩
          intro l' hl' hkl'
          rcases List.mem_append.mp hl' with hl2 | hl2
          · exact hmax l' hl2 hkl'
          · rw [List.mem_singleton.mp hl2] at hkl'
            exact absurd hkl'.symm hqk
      · intro l' hl'
        rcases List.mem_append.mp hl' with hl2 | hl2
        · obtain ⟨e, he, hek⟩ := hcov l' hl2
          refine ⟨(if e.1 = kf line then (e.1, (lineTs line, line)) else e),
            List.mem_map.mpr ⟨e, he, rfl⟩, ?_⟩
          rw [hfst e]
          exact hek
        · rw [List.mem_singleton.mp hl2]
          refine ⟨(if p.1 = kf line then (p.1, (lineTs line, line)) else p),
            List.mem_map.mpr ⟨p, hp_mem, rfl⟩, ?_⟩
          rw [hfst p]
          exact hp_key
    · simp only [upsertNewest, hf, if_neg hts]
      refine ⟨hnd, ?_, ?_⟩
      · intro e he
        obtain ⟨hk, ht, hm, hmax⟩ := hent e he
        refine ⟨hk, ht, List.mem_append_left _ hm, ?_⟩
        intro l' hl' hkl'
        rcases List.mem_append.mp hl' with hl2 | hl2
        · exact hmax l' hl2 hkl'
        · rw [List.mem_singleton.mp hl2] at hkl'
          have hep : e = p := eq_of_fst_eq hnd he hp_mem (hkl'.symm.trans hp_key.symm)
          rw [List.mem_singleton.mp hl2]
          show lineTs line ≤ e.2.1
          rw [hep]
          omega
      · intro l' hl'
        rcases List.mem_append.mp hl' with hl2 | hl2
        · exact hcov l' hl2
        · rw [List.mem_singleton.mp hl2]
          exact ⟨p, hp_mem, hp_key⟩

theorem NewestAcc_foldl (kf : Line → String) (rest : List Line) :
    ∀ (processed : List Line) (acc : List (String × (Nat × Line))),
      NewestAcc kf processed acc →
      NewestAcc kf (processed ++ rest) (rest.foldl (upsertNewest kf) acc) := by
  induction rest with
  | nil => intro processed acc h; simpa using h
  | cons l ls ih =>
    intro processed acc h
    have h1 := NewestAcc_step kf processed acc l h
    have h2 := ih (processed ++ [l]) _ h1
    simpa [List.append_assoc] using h2

theorem NewestAcc_nil (kf : Line → String) : NewestAcc kf [] [] := by
  refine ⟨by simp, by simp, by simp⟩

/-- The characterisation of `filter_lines`: one row per first data cell, each
retained row comes from the input and is newest for its key, every input key
is represented. -/
theorem filter_lines_spec (lines : List Line) :
    ((filter_lines lines).map lineKey1).Nodup ∧
    (∀ l ∈ filter_lines lines, l ∈ lines ∧
      ∀ l' ∈ lines, lineKey1 l' = lineKey1 l → lineTs l' ≤ lineTs l) ∧
    (∀ l' ∈ lines, ∃ l ∈ filter_lines lines, lineKey1 l = lineKey1 l') := by
  have hacc := NewestAcc_foldl lineKey1 lines [] [] (NewestAcc_nil lineKey1)
  rw [List.nil_append] at hacc
  obtain ⟨hnd, hent, hcov⟩ := hacc
  refine ⟨?_, ?_, ?_⟩
  · unfold filter_lines
    rw [List.map_map]
    have h2 : List.map (lineKey1 ∘ fun p => p.2.2)
        (List.foldl (upsertNewest lineKey1) [] lines) =
        List.map Prod.fst (List.foldl (upsertNewest lineKey1) [] lines) :=
      List.map_congr_left (fun e he => (hent e he).1)
    rw [h2]
    exact hnd
  · intro l hl
    obtain ⟨e, he, hel⟩ := List.mem_map.mp hl
    obtain ⟨hk, ht, hm, hmax⟩ := hent e he
    rw [← hel]
    refine ⟨hm, ?_⟩
    intro l' hl' hkl'
    have := hmax l' hl' (hkl'.trans hk)
    omega
  · intro l' hl'
    obtain ⟨e, he, hek⟩ := hcov l' hl'
    refine ⟨e.2.2, List.mem_map.mpr ⟨e, he, rfl⟩, ?_⟩
    rw [(hent e he).1, hek]

/-! ## The `sort_lines` comparator as a total preorder -/

theorem natCmp_of_lt {a b : Nat} (h : a < b) : natCmp a b = .lt := by
  unfold natCmp
  rw [if_pos h]

theorem natCmp_of_eq {a b : Nat} (h : a = b) : natCmp a b = .eq := by
  unfold natCmp
  rw [if_neg (by omega), if_pos h]

theorem natCmp_of_gt {a b : Nat} (h : b < a) : natCmp a b = .gt := by
  unfold natCmp
  rw [if_neg (by omega), if_neg (by omega)]

theorem intCmp_of_lt {a b : Int} (h : a < b) : intCmp a b = .lt := by
  unfold intCmp
  rw [if_pos h]

theorem intCmp_of_eq {a b : Int} (h : a = b) : intCmp a b = .eq := by
  unfold intCmp
  rw [if_neg (by omega), if_pos h]

theorem intCmp_of_gt {a b : Int} (h : b < a) : intCmp a b = .gt := by
  unfold intCmp
  rw [if_neg (by omega), if_neg (by omega)]

theorem lineLe_iff (ck : Nat) (a b : Line) :
    lineLe ck a b ↔
      lineTok a < lineTok b ∨ (lineTok a = lineTok b ∧ lineClu ck a ≤ lineClu ck b) := by
  unfold lineLe lineCmp
  rcases Nat.lt_trichotomy (lineTok a) (lineTok b) with h | h | h
  · rw [natCmp_of_lt h]
    simp only
    constructor
    · intro _; exact .inl h
    · intro _; simp
  · rw [natCmp_of_eq h]
    simp only
    rcases Int.lt_trichotomy (lineClu ck a) (lineClu ck b) with h2 | h2 | h2
    · rw [intCmp_of_lt h2]
      constructor
      · intro _; exact .inr ⟨h, by omega⟩
      · intro _; simp
    · rw [intCmp_of_eq h2]
      constructor
      · intro _; exact .inr ⟨h, by omega⟩
      · intro _; simp
    · rw [intCmp_of_gt h2]
      constructor
      · intro hc; exact absurd rfl hc
      · intro hc
        exfalso
        rcases hc with hc | hc
        · omega
        · omega
  · rw [natCmp_of_gt h]
    simp only
    constructor
    · intro hc; exact absurd rfl hc
    · intro hc
      exfalso
      rcases hc with hc | hc
      · omega
      · omega

instance (ck : Nat) : IsTotal Line (lineLe ck) :=
  ⟨fun a b => by
    rw [lineLe_iff, lineLe_iff]
    omega⟩

instance (ck : Nat) : IsTrans Line (lineLe ck) :=
  ⟨fun a b c hab hbc => by
    rw [lineLe_iff] at *
    omega⟩

/-- C1 as amended: after compaction the SSTable holds at most one row per
**first data cell** (the map over `lineKey1` is duplicate-free); every
retained row comes from the combined memtable-plus-SSTable input and carries a
maximal timestamp among the input rows sharing its first cell; and every input
first-cell value is still represented. -/
theorem C1_compaction_newest_per_first_cell (tbl : MemTable) :
    ((compact_sstable tbl).map lineKey1).Nodup ∧
    (∀ l ∈ compact_sstable tbl, l ∈ tbl.sstable ++ mem_lines tbl ∧
      ∀ l' ∈ tbl.sstable ++ mem_lines tbl, lineKey1 l' = lineKey1 l →
        lineTs l' ≤ lineTs l) ∧
    (∀ l' ∈ tbl.sstable ++ mem_lines tbl,
      ∃ l ∈ compact_sstable tbl, lineKey1 l = lineKey1 l') := by
  have hperm : (compact_sstable tbl).Perm (filter_lines (tbl.sstable ++ mem_lines tbl)) :=
    List.perm_insertionSort _ _
  have hspec := filter_lines_spec (tbl.sstable ++ mem_lines tbl)
  refine ⟨?_, ?_, ?_⟩
  · exact (hperm.map lineKey1).nodup_iff.mpr hspec.1
  · intro l hl
    exact hspec.2.1 l (hperm.mem_iff.mp hl)
  · intro l' hl'
    obtain ⟨l, hl, hk⟩ := hspec.2.2 l' hl'
    exact ⟨l, hperm.mem_iff.mpr hl, hk⟩

set_option maxRecDepth 8192 in
/-- C1 witness: the amended compaction property applied to the concrete
two-row table. -/
theorem C1_compaction_newest_per_first_cell_witness :
    (["5", "2", "7", tsB] : Line) ∈ tblC1.sstable ++ mem_lines tblC1 ∧
    lineTs ["5", "2", "7", tsB] ≤ lineTs ["5", "2", "7", tsB] :=
  ⟨((C1_compaction_newest_per_first_cell tblC1).2.1 ["5", "2", "7", tsB] (by decide)).1,
   ((C1_compaction_newest_per_first_cell tblC1).2.1 ["5", "2", "7", tsB] (by decide)).2
     ["5", "2", "7", tsB] (by decide) (by decide)⟩

/-! ## Recompaction under an unspecified drain order (C7) -/

theorem foldl_upsert_of_fresh (kf : Line → String) (lines : List Line) :
    ∀ acc, (lines.map kf).Nodup → (∀ l ∈ lines, ∀ e ∈ acc, e.1 ≠ kf l) →
      lines.foldl (upsertNewest kf) acc =
        acc ++ lines.map (fun l => (kf l, (lineTs l, l))) := by
  induction lines with
  | nil => intro acc _ _; simp
  | cons l ls ih =>
    intro acc hnd hdisj
    rw [List.foldl_cons]
    have hfind : acc.find? (fun p => p.1 = kf l) = none := by
      rw [List.find?_eq_none]
      intro e he
      simpa using hdisj l (by simp) e he
    have hstep : upsertNewest kf acc l = acc ++ [(kf l, (lineTs l, l))] := by
      simp only [upsertNewest, hfind]
    rw [hstep]
    rw [List.map_cons, List.nodup_cons] at hnd
    rw [ih (acc ++ [(kf l, (lineTs l, l))]) hnd.2 ?fresh]
    · simp
    case fresh =>
      intro l2 hl2 e he
      rcases List.mem_append.mp he with he1 | he1
      · exact hdisj l2 (by simp [hl2]) e he1
      · rw [List.mem_singleton.mp he1]
        intro hc
        apply hnd.1
        have hc2 : kf l = kf l2 := hc
        rw [hc2]
        exact List.mem_map.mpr ⟨l2, hl2, rfl⟩

theorem filter_lines_of_nodup_keys (lines : List Line)
    (h : (lines.map lineKey1).Nodup) : filter_lines lines = lines := by
  unfold filter_lines
  rw [foldl_upsert_of_fresh lineKey1 lines [] h (by simp)]
  simp only [List.nil_append, List.map_map]
  have hcomp : ((fun p : String × (Nat × Line) => p.2.2) ∘
      fun l : Line => (lineKey1 l, (lineTs l, l))) = fun l : Line => l := rfl
  rw [hcomp]
  simp

theorem natCmp_lt_iff {a b : Nat} : natCmp a b = .lt ↔ a < b := by
  unfold natCmp
  by_cases h : a < b
  · simp [h]
  · by_cases h2 : a = b <;> simp [h, h2]

theorem intCmp_lt_iff {a b : Int} : intCmp a b = .lt ↔ a < b := by
  unfold intCmp
  by_cases h : a < b
  · simp [h]
  · by_cases h2 : a = b <;> simp [h, h2]

theorem natCmp_swap_lt {a b : Nat} (h : natCmp a b = .lt) : natCmp b a = .gt :=
  natCmp_of_gt (natCmp_lt_iff.mp h)

theorem intCmp_swap_lt {a b : Int} (h : intCmp a b = .lt) : intCmp b a = .gt :=
  intCmp_of_gt (intCmp_lt_iff.mp h)

theorem lineCmp_refl (ck : Nat) (a : Line) : lineCmp ck a a = .eq := by
  simp only [lineCmp, natCmp_of_eq rfl, intCmp_of_eq rfl]

theorem lineCmp_swap_lt {ck : Nat} {a b : Line} (h : lineCmp ck a b = .lt) :
    lineCmp ck b a = .gt := by
  unfold lineCmp at h ⊢
  rcases Nat.lt_trichotomy (lineTok a) (lineTok b) with h1 | h1 | h1
  · rw [natCmp_of_gt h1]
  · rw [natCmp_of_eq h1] at h
    rw [natCmp_of_eq h1.symm]
    have h' : intCmp (lineClu ck a) (lineClu ck b) = .lt := h
    exact intCmp_swap_lt h'
  · rw [natCmp_of_gt h1] at h
    simp at h

/-- A list that is a permutation of a strictly sorted list and itself sorted
(w.r.t. the corresponding non-strict order) is that list. -/
theorem eq_of_perm_strictSorted (ck : Nat) :
    ∀ (F g : List Line), g.Perm F → List.Sorted (lineLe ck) g →
      F.Pairwise (fun a b => lineCmp ck a b = .lt) → g = F := by
  intro F
  induction F with
  | nil =>
    intro g hperm _ _
    exact hperm.eq_nil
  | cons a F ih =>
    intro g hperm hsort hpair
    cases g with
    | nil => exact absurd hperm (by simp)
    | cons b g' =>
      have hb : b = a := by
        by_contra hba
        have hbmem : b ∈ a :: F := hperm.mem_iff.mp (List.mem_cons_self b g')
        have hbF : b ∈ F := by
          rcases List.mem_cons.mp hbmem with h | h
          · exact absurd h hba
          · exact h
        have hab : lineCmp ck a b = .lt := (List.pairwise_cons.mp hpair).1 b hbF
        have hamem : a ∈ b :: g' := hperm.mem_iff.mpr (List.mem_cons_self a F)
        have hag : a ∈ g' := by
          rcases List.mem_cons.mp hamem with h | h
          · exact absurd h.symm hba
          · exact h
        have hle : lineLe ck b a := (List.sorted_cons.mp hsort).1 a hag
        exact hle (lineCmp_swap_lt hab)
      subst hb
      have hperm' : g'.Perm F := hperm.cons_inv
      have hsort' := (List.sorted_cons.mp hsort).2
      have hpair' := (List.pairwise_cons.mp hpair).2
      rw [ih g' hperm' hsort' hpair']

/-- Compacted lines carry pairwise distinct first data cells. -/
theorem compact_keys_nodup (tbl : MemTable) :
    ((compact_sstable tbl).map lineKey1).Nodup := by
  have hperm : (compact_sstable tbl).Perm
      (filter_lines (tbl.sstable ++ mem_lines tbl)) :=
    List.perm_insertionSort _ _
  exact ((hperm.map lineKey1).nodup_iff).mpr (filter_lines_spec _).1

/-- C7: recompacting an already-compacted SSTable over an empty memtable,
under an arbitrary (unspecified) drain order of the `filter_lines` `HashMap`,
yields a permutation of the original file that is again sorted by the
`sort_lines` comparator; when that comparator is strict on the compacted lines
(no two lines tie on token and clustering cell), the rewritten file is
byte-identical to the original. -/
theorem C7_recompaction_upto_drain (tbl : MemTable) (drained : List Line)
    (hadm : AdmissibleDrain { tbl with data := [], sstable := compact_sstable tbl } drained) :
    (compact_sstable_drained { tbl with data := [], sstable := compact_sstable tbl }
        drained).Perm (compact_sstable tbl) ∧
    List.Sorted (lineLe tbl.ckIdx)
      (compact_sstable_drained { tbl with data := [], sstable := compact_sstable tbl }
        drained) ∧
    ((compact_sstable tbl).Pairwise (fun a b => lineCmp tbl.ckIdx a b = .lt) →
      compact_sstable_drained { tbl with data := [], sstable := compact_sstable tbl }
          drained = compact_sstable tbl) := by
  have hml : mem_lines { tbl with data := [], sstable := compact_sstable tbl } = [] := rfl
  have hF : filter_lines (compact_sstable tbl ++
      mem_lines { tbl with data := [], sstable := compact_sstable tbl }) =
      compact_sstable tbl := by
    rw [hml, List.append_nil]
    exact filter_lines_of_nodup_keys _ (compact_keys_nodup tbl)
  have hadm' : drained.Perm (compact_sstable tbl) := by
    have h0 : drained.Perm (filter_lines (compact_sstable tbl ++
        mem_lines { tbl with data := [], sstable := compact_sstable tbl })) := hadm
    rwa [hF] at h0
  have hck : MemTable.ckIdx { tbl with data := [], sstable := compact_sstable tbl } =
      tbl.ckIdx := rfl
  have hout : compact_sstable_drained { tbl with data := [], sstable := compact_sstable tbl }
      drained = drained.insertionSort (lineLe tbl.ckIdx) := by
    show sort_lines _ drained = _
    unfold sort_lines
    rw [hck]
  refine ⟨?_, ?_, ?_⟩
  · rw [hout]
    exact (List.perm_insertionSort _ _).trans hadm'
  · rw [hout]
    exact List.sorted_insertionSort _ _
  · intro hstrict
    rw [hout]
    exact eq_of_perm_strictSorted tbl.ckIdx (compact_sstable tbl) _
      ((List.perm_insertionSort _ _).trans hadm')
      (List.sorted_insertionSort _ _) hstrict

set_option maxRecDepth 8192 in
/-- C7 witness: the drain-order contract applied to a concrete two-row table
whose lines differ in token, with the drain delivered in reversed order. -/
theorem C7_recompaction_upto_drain_witness :
    (compact_sstable_drained { tblC7 with data := [], sstable := compact_sstable tblC7 }
        [["6", "2", "8", tsB], ["5", "1", "7", tsA]]).Perm (compact_sstable tblC7) ∧
    List.Sorted (lineLe tblC7.ckIdx)
      (compact_sstable_drained { tblC7 with data := [], sstable := compact_sstable tblC7 }
        [["6", "2", "8", tsB], ["5", "1", "7", tsA]]) ∧
    compact_sstable_drained { tblC7 with data := [], sstable := compact_sstable tblC7 }
        [["6", "2", "8", tsB], ["5", "1", "7", tsA]] = compact_sstable tblC7 := by
  have h := C7_recompaction_upto_drain tblC7
    [["6", "2", "8", tsB], ["5", "1", "7", tsA]] (by decide)
  exact ⟨h.1, h.2.1, h.2.2 (by decide)⟩

set_option maxRecDepth 8192 in
/-- C7 counterexample: two compacted lines tied on token and clustering cell
but distinct in the first data cell can be drained in either order, and
recompacting after a reversed drain emits them in the reversed order — the
rewritten SSTable is not byte-identical to the original. -/
theorem C7_counterexample :
    compact_sstable tblC1 = [["5", "1", "7", tsA], ["5", "2", "7", tsB]] ∧
    AdmissibleDrain { tblC1 with data := [], sstable := compact_sstable tblC1 }
      [["5", "2", "7", tsB], ["5", "1", "7", tsA]] ∧
    compact_sstable_drained { tblC1 with data := [], sstable := compact_sstable tblC1 }
      [["5", "2", "7", tsB], ["5", "1", "7", tsA]] =
      [["5", "2", "7", tsB], ["5", "1", "7", tsA]] ∧
    ([["5", "2", "7", tsB], ["5", "1", "7", tsA]] : List Line) ≠
      [["5", "1", "7", tsA], ["5", "2", "7", tsB]] := by
  refine ⟨by decide, by decide, by decide, by decide⟩

/-! ## Replica-walk step lemmas -/

theorem replicasLoop_stop (ring : List (Nat × String)) (localAddr : String)
    (m fuel key : Nat) (nodes : List String) (hm : ¬nodes.length < m) :
    replicasLoop ring localAddr m (fuel + 1) key nodes = some (.ok nodes) := by
  rw [replicasLoop, if_neg hm]

theorem replicasLoop_cons (ring : List (Nat × String)) (localAddr : String)
    (m fuel key : Nat) (nodes : List String) (e : Nat × String) (rest : List (Nat × String))
    (last : Nat × String) (hm : nodes.length < m) (hl : ring.getLast? = some last)
    (hkle : ¬last.1 < key) (hA : afterKey ring key = e :: rest) :
    replicasLoop ring localAddr m (fuel + 1) key nodes =
      replicasLoop ring localAddr m fuel e.1
        (if ¬nodes.contains e.2 ∧ e.2 ≠ localAddr then nodes ++ [e.2] else nodes) := by
  rw [replicasLoop, if_pos hm]
  simp only [hl, if_neg hkle, hA]

theorem replicasLoop_wrap (ring : List (Nat × String)) (localAddr : String)
    (m fuel key : Nat) (nodes : List String) (h0 : Nat × String) (last : Nat × String)
    (hm : nodes.length < m) (hl : ring.getLast? = some last) (hkle : ¬last.1 < key)
    (hh : ring.head? = some h0) (hA : afterKey ring key = []) :
    replicasLoop ring localAddr m (fuel + 1) key nodes =
      replicasLoop ring localAddr m fuel h0.1
        (if ¬nodes.contains h0.2 ∧ h0.2 ≠ localAddr then nodes ++ [h0.2] else nodes) := by
  rw [replicasLoop, if_pos hm]
  simp only [hl, if_neg hkle, hA, hh]

/-- A key above the maximal token makes the source's `BTreeMap::range` call
panic (modelled by error 999). -/
theorem replicasLoop_panic (ring : List (Nat × String)) (localAddr : String)
    (m fuel key : Nat) (nodes : List String) (last : Nat × String)
    (hm : nodes.length < m) (hl : ring.getLast? = some last) (hkgt : last.1 < key) :
    replicasLoop ring localAddr m (fuel + 1) key nodes = some (.error 999) := by
  rw [replicasLoop, if_pos hm]
  simp only [hl, if_pos hkgt]

/-- In a strictly key-sorted ring the last entry carries the maximal token. -/
theorem le_getLast_of_sorted : ∀ (ring : List (Nat × String)) (eL : Nat × String),
    keysSorted ring → ring.getLast? = some eL → ∀ e ∈ ring, e.1 ≤ eL.1
  | [], _, _, _, e, he => absurd he (List.not_mem_nil e)
  | [p], eL, _, hl, e, he => by
    have h1 : p = eL := by simpa using hl
    have h2 : e = p := by simpa using he
    rw [h2, h1]
  | p :: q :: rest, eL, hs, hl, e, he => by
    rw [List.getLast?_cons_cons] at hl
    rw [keysSorted, List.pairwise_cons] at hs
    rcases List.mem_cons.mp he with h | h
    · have heL : eL ∈ q :: rest := List.mem_of_mem_getLast? hl
      have := hs.1 eL heL
      rw [h]
      omega
    · exact le_getLast_of_sorted (q :: rest) eL hs.2 hl e h

/-- An empty `afterKey` bounds every token by the key. -/
theorem afterKey_nil_bound {ring : List (Nat × String)} {key : Nat}
    (hA : afterKey ring key = []) : ∀ p ∈ ring, p.1 ≤ key := by
  intro p hp
  have := List.filter_eq_nil_iff.mp hA p hp
  simpa using this

/-- On the single-endpoint ring every visited entry belongs to `"a"`, so with
`exclude = "a"` and a covered key the walk never collects a node and never
terminates. -/
theorem replicasLoop_ringC3_none : ∀ fuel key, key ≤ 31 →
    replicasLoop ringC3 "a" 1 fuel key [] = none := by
  intro fuel
  induction fuel with
  | zero => intro key _; rfl
  | succ n ih =>
    intro key hk
    have hall : ∀ p ∈ ringC3, p.2 = "a" := by decide
    have hl : ringC3.getLast? = some (31, "a") := by decide
    have hkle : ¬(31 : Nat) < key := by omega
    cases hA : afterKey ringC3 key with
    | cons e rest =>
      have hmem : e ∈ ringC3 := by
        refine List.mem_of_mem_filter (p := fun p => decide (key < p.1)) ?_
        rw [show ringC3.filter (fun p => decide (key < p.1)) = e :: rest from hA]
        exact List.mem_cons_self e rest
      have he31 : e.1 ≤ 31 :=
        le_getLast_of_sorted ringC3 (31, "a") (by decide) hl e hmem
      rw [replicasLoop_cons ringC3 "a" 1 n key [] e rest (31, "a") (by decide) hl hkle hA]
      rw [if_neg (by simp [hall e hmem])]
      exact ih e.1 he31
    | nil =>
      rw [replicasLoop_wrap ringC3 "a" 1 n key [] (0, "a") (31, "a") (by decide) hl hkle
        (by decide) hA]
      rw [if_neg (by simp)]
      exact ih 0 (by omega)

/-- C3 (code bug): this ring has **one** physical endpoint — fewer than
`rf = 2` — yet `get_replicas` never fails with `NotEnoughNodes` (the guard
compares the virtual-token count `32 - 1` against `rf`): for keys up to the
maximal token the walk finds no eligible replica and never returns, and for
keys above it the source's `BTreeMap::range` panics (modelled by error 999) —
in no case the claimed error. -/
theorem C3_not_enough_nodes_check_counts_tokens :
    physCount ringC3 = 1 ∧
    (∀ fuel key, key ≤ 31 → get_replicas ringC3 fuel key 2 "a" = none) ∧
    (∀ fuel key, 31 < key → get_replicas ringC3 (fuel + 1) key 2 "a" = some (.error 999)) := by
  refine ⟨by decide, ?_, ?_⟩
  · intro fuel key hk
    unfold get_replicas
    rw [if_neg (by decide), show usizePred 2 = 1 from by decide]
    exact replicasLoop_ringC3_none fuel key hk
  · intro fuel key hk
    unfold get_replicas
    rw [if_neg (by decide), show usizePred 2 = 1 from by decide]
    exact replicasLoop_panic ringC3 "a" 1 fuel key [] (31, "a") (by decide) (by decide) hk

/-- C3 witness: the under-replicated ring still running at fuel 100 for a
covered key, and hitting the range panic for a key above every token. -/
theorem C3_not_enough_nodes_check_counts_tokens_witness :
    get_replicas ringC3 100 0 2 "a" = none ∧
    get_replicas ringC3 100 1000 2 "a" = some (.error 999) :=
  ⟨C3_not_enough_nodes_check_counts_tokens.2.1 100 0 (by decide),
   C3_not_enough_nodes_check_counts_tokens.2.2 99 1000 (by decide)⟩

/-! ## The replica walk visits the ring entries after the key, then cycles -/

theorem afterKey_cons_tail (ring : List (Nat × String)) (key : Nat) (e : Nat × String)
    (es : List (Nat × String)) (hs : keysSorted ring)
    (hA : afterKey ring key = e :: es) : afterKey ring e.1 = es := by
  induction ring with
  | nil => simp [afterKey] at hA
  | cons p rest ih =>
    rw [keysSorted, List.pairwise_cons] at hs
    by_cases hk : key < p.1
    · have hrest : afterKey rest key = rest :=
        List.filter_eq_self.mpr (fun a ha => by
          have := hs.1 a ha
          simp
          omega)
      have hA2 : afterKey (p :: rest) key = p :: rest := by
        unfold afterKey
        rw [List.filter_cons_of_pos (by simpa using hk)]
        exact congrArg (p :: ·) hrest
      rw [hA2] at hA
      obtain ⟨hep, hes⟩ : e = p ∧ es = rest := ⟨(List.cons.injEq _ _ _ _ ▸ hA).1.symm,
        (List.cons.injEq _ _ _ _ ▸ hA).2.symm⟩
      unfold afterKey
      rw [List.filter_cons_of_neg (by simp [hep])]
      rw [hes]
      exact List.filter_eq_self.mpr (fun a ha => by
        have := hs.1 a ha
        rw [hep]
        simpa using this)
    · have hA2 : afterKey (p :: rest) key = afterKey rest key := by
        unfold afterKey
        rw [List.filter_cons_of_neg (by simpa using hk)]
      rw [hA2] at hA
      have hkey_e : key < e.1 := by
        have hmem : e ∈ afterKey rest key := by
          rw [hA]; exact List.mem_cons_self e es
        simpa using List.of_mem_filter hmem
      have hpe : ¬ e.1 < p.1 := by omega
      have hgoal : afterKey (p :: rest) e.1 = afterKey rest e.1 := by
        unfold afterKey
        rw [List.filter_cons_of_neg (by simpa using hpe)]
      rw [hgoal]
      exact ih hs.2 hA

theorem afterKey_of_head (ring : List (Nat × String)) (h0 : Nat × String)
    (t : List (Nat × String)) (hs : keysSorted ring) (hr : ring = h0 :: t) :
    afterKey ring h0.1 = t := by
  subst hr
  rw [keysSorted, List.pairwise_cons] at hs
  unfold afterKey
  rw [List.filter_cons_of_neg (by simp)]
  exact List.filter_eq_self.mpr (fun a ha => by simpa using hs.1 a ha)

theorem runPass_append_form (localAddr : String) (m : Nat) :
    ∀ (s : List (Nat × String)) (nodes : List String),
      ∃ extra, runPass localAddr m s nodes = nodes ++ extra := by
  intro s
  induction s with
  | nil => exact fun nodes => ⟨[], by simp [runPass]⟩
  | cons e es ih =>
    intro nodes
    by_cases hm : nodes.length < m
    · rw [runPass, if_pos hm]
      by_cases hp : ¬nodes.contains e.2 ∧ e.2 ≠ localAddr
      · rw [if_pos hp]
        obtain ⟨ex, hex⟩ := ih (nodes ++ [e.2])
        exact ⟨[e.2] ++ ex, by rw [hex]; simp⟩
      · rw [if_neg hp]
        exact ih nodes
    · rw [runPass, if_neg hm]
      exact ⟨[], by simp⟩

theorem runPass_inv (ring : List (Nat × String)) (exclude : String) (m : Nat) :
    ∀ (s : List (Nat × String)) (nodes : List String), (∀ e ∈ s, e ∈ ring) →
      PassInv ring exclude m nodes →
      PassInv ring exclude m (runPass exclude m s nodes) := by
  intro s
  induction s with
  | nil => exact fun nodes _ h => h
  | cons e es ih =>
    intro nodes hsub hinv
    by_cases hm : nodes.length < m
    · rw [runPass, if_pos hm]
      refine ih _ (fun x hx => hsub x (by simp [hx])) ?_
      by_cases hp : ¬nodes.contains e.2 ∧ e.2 ≠ exclude
      · rw [if_pos hp]
        obtain ⟨hnd, hgood, hlen⟩ := hinv
        refine ⟨?_, ?_, ?_⟩
        · rw [List.nodup_append]
          refine ⟨hnd, by simp, ?_⟩
          intro x hx
          simp only [List.mem_singleton]
          intro hc
          rw [hc] at hx
          exact hp.1 (by simpa using hx)
        · intro x hx
          rcases List.mem_append.mp hx with h1 | h1
          · exact hgood x h1
          · rw [List.mem_singleton.mp h1]
            exact ⟨List.mem_map.mpr ⟨e, hsub e (by simp), rfl⟩, hp.2⟩
        · simp
          omega
      · rw [if_neg hp]
        exact hinv
    · rw [runPass, if_neg hm]
      exact hinv

theorem runPass_coverage (exclude : String) (m : Nat) :
    ∀ (s : List (Nat × String)) (nodes : List String),
      (runPass exclude m s nodes).length < m →
      ∀ e ∈ s, e.2 = exclude ∨ e.2 ∈ runPass exclude m s nodes := by
  intro s
  induction s with
  | nil => intro nodes _ e he; cases he
  | cons e0 es ih =>
    intro nodes hlt e' he'
    by_cases hm : nodes.length < m
    · rw [runPass, if_pos hm] at hlt ⊢
      rcases List.mem_cons.mp he' with h1 | h1
      · by_cases hx : e'.2 = exclude
        · exact .inl hx
        · refine .inr ?_
          rw [h1]
          rw [h1] at hx
          have hmem : e0.2 ∈ (if ¬nodes.contains e0.2 ∧ e0.2 ≠ exclude
              then nodes ++ [e0.2] else nodes) := by
            by_cases hc : nodes.contains e0.2
            · have : e0.2 ∈ nodes := by simpa using hc
              by_cases hp : ¬nodes.contains e0.2 ∧ e0.2 ≠ exclude
              · rw [if_pos hp]; exact List.mem_append_left _ this
              · rw [if_neg hp]; exact this
            · rw [if_pos ⟨hc, hx⟩]
              exact List.mem_append_right _ (by simp)
          obtain ⟨extra, hex⟩ := runPass_append_form exclude m es
            (if ¬nodes.contains e0.2 ∧ e0.2 ≠ exclude then nodes ++ [e0.2] else nodes)
          rw [hex]
          exact List.mem_append_left _ hmem
      · exact ih _ hlt e' h1
    · rw [runPass, if_neg hm] at hlt
      exact absurd hlt hm

theorem goodVals_length (ring : List (Nat × String)) (exclude : String)
    (hex : exclude ∈ ringValues ring) :
    (goodVals ring exclude).length = physCount ring - 1 := by
  have hmem : exclude ∈ (ring.map Prod.snd).dedup := List.mem_dedup.mpr hex
  have hnd := List.nodup_dedup (ring.map Prod.snd)
  have hcount : List.count exclude ((ring.map Prod.snd).dedup) = 1 := by
    have hle := List.nodup_iff_count_le_one.mp hnd exclude
    have hge : 0 < List.count exclude ((ring.map Prod.snd).dedup) :=
      List.count_pos_iff.mpr hmem
    omega
  have hsplit := List.length_eq_countP_add_countP (fun v => decide (v ≠ exclude))
    ((ring.map Prod.snd).dedup)
  have h1 : List.countP (fun v => decide (v ≠ exclude)) ((ring.map Prod.snd).dedup) =
      (goodVals ring exclude).length :=
    List.countP_eq_length_filter _ _
  have h2 : List.countP (fun a => decide (¬(decide (a ≠ exclude)) = true))
      ((ring.map Prod.snd).dedup) = List.count exclude ((ring.map Prod.snd).dedup) := by
    rw [List.count_eq_countP]
    refine List.countP_congr (fun x _ => ?_)
    by_cases hx : x = exclude
    · simp [hx]
    · simp [hx]
  rw [h1, h2, hcount] at hsplit
  unfold physCount
  omega

theorem runPass_full (ring : List (Nat × String)) (exclude : String) (m : Nat)
    (nodes : List String) (hinv : PassInv ring exclude m nodes)
    (hgood : m ≤ (goodVals ring exclude).length) :
    (runPass exclude m ring nodes).length = m := by
  have hinv2 : PassInv ring exclude m (runPass exclude m ring nodes) :=
    runPass_inv ring exclude m ring nodes (fun e he => he) hinv
  by_contra hne
  have hlt : (runPass exclude m ring nodes).length < m := by
    have := hinv2.2.2
    omega
  have hcov := runPass_coverage exclude m ring nodes hlt
  have hsub : ∀ v ∈ goodVals ring exclude, v ∈ runPass exclude m ring nodes := by
    intro v hv
    have hv1 : v ∈ (ring.map Prod.snd).dedup := List.mem_of_mem_filter hv
    have hvne : v ≠ exclude := by simpa using List.of_mem_filter hv
    obtain ⟨e, he, hev⟩ := List.mem_map.mp (List.mem_dedup.mp hv1)
    rcases hcov e he with h | h
    · exact absurd (hev ▸ h) hvne
    · exact hev ▸ h
  have hndg : (goodVals ring exclude).Nodup := (List.nodup_dedup _).filter _
  have h1 : (goodVals ring exclude).toFinset ⊆ (runPass exclude m ring nodes).toFinset :=
    fun v hv => List.mem_toFinset.mpr (hsub v (List.mem_toFinset.mp hv))
  have h2 : (goodVals ring exclude).toFinset.card = (goodVals ring exclude).length :=
    List.toFinset_card_of_nodup hndg
  have h3 : (runPass exclude m ring nodes).toFinset.card =
      (runPass exclude m ring nodes).length :=
    List.toFinset_card_of_nodup hinv2.1
  have h4 := Finset.card_le_card h1
  omega

theorem loop_simulates_pass (ring : List (Nat × String)) (exclude : String) (m : Nat)
    (hs : keysSorted ring) (hne : ring ≠ []) :
    ∀ (s : List (Nat × String)) (key : Nat) (nodes : List String) (fuel : Nat),
      afterKey ring key = s →
      (runPass exclude m s nodes).length < m →
      ∃ key', afterKey ring key' = [] ∧ (key' = key ∨ ∃ e ∈ ring, key' = e.1) ∧
        replicasLoop ring exclude m (s.length + fuel) key nodes =
          replicasLoop ring exclude m fuel key' (runPass exclude m s nodes) := by
  intro s
  induction s with
  | nil =>
    intro key nodes fuel hA _
    exact ⟨key, hA, Or.inl rfl, by rw [runPass]; simp⟩
  | cons e es ih =>
    intro key nodes fuel hA hlt
    have hm : nodes.length < m := by
      obtain ⟨extra, hex⟩ := runPass_append_form exclude m (e :: es) nodes
      have hlen := congrArg List.length hex
      simp at hlen
      omega
    have hcount : (e :: es).length + fuel = (es.length + fuel) + 1 := by
      simp
      omega
    obtain ⟨last, hl⟩ := Option.isSome_iff_exists.mp (List.getLast?_isSome.mpr hne)
    have hmemE : e ∈ ring := by
      refine List.mem_of_mem_filter (p := fun p => decide (key < p.1)) ?_
      rw [show ring.filter (fun p => decide (key < p.1)) = e :: es from hA]
      exact List.mem_cons_self e es
    have hklt : key < e.1 := by
      have hin : e ∈ afterKey ring key := by
        rw [hA]
        exact List.mem_cons_self e es
      simpa using List.of_mem_filter hin
    have hkle : ¬last.1 < key := by
      have := le_getLast_of_sorted ring last hs hl e hmemE
      omega
    rw [hcount,
      replicasLoop_cons ring exclude m (es.length + fuel) key nodes e es last hm hl hkle hA]
    have hA2 : afterKey ring e.1 = es := afterKey_cons_tail ring key e es hs hA
    have hrp : runPass exclude m (e :: es) nodes = runPass exclude m es
        (if ¬nodes.contains e.2 ∧ e.2 ≠ exclude then nodes ++ [e.2] else nodes) := by
      rw [runPass, if_pos hm]
    rw [hrp] at hlt
    obtain ⟨key', hk1, hdisj, hk2⟩ := ih e.1 _ fuel hA2 hlt
    refine ⟨key', hk1, ?_, by rw [hk2, hrp]⟩
    rcases hdisj with h | h
    · exact Or.inr ⟨e, hmemE, h⟩
    · exact Or.inr h

theorem loop_reaches_pass (ring : List (Nat × String)) (exclude : String) (m : Nat)
    (hs : keysSorted ring) (hne : ring ≠ []) :
    ∀ (s : List (Nat × String)) (key : Nat) (nodes : List String) (fuel : Nat),
      afterKey ring key = s →
      m ≤ (runPass exclude m s nodes).length →
      s.length + 1 ≤ fuel →
      replicasLoop ring exclude m fuel key nodes = some (.ok (runPass exclude m s nodes)) := by
  intro s
  induction s with
  | nil =>
    intro key nodes fuel hA hge hf
    obtain ⟨f, rfl⟩ : ∃ f, fuel = f + 1 := ⟨fuel - 1, by omega⟩
    rw [runPass] at hge ⊢
    exact replicasLoop_stop ring exclude m f key nodes (by omega)
  | cons e es ih =>
    intro key nodes fuel hA hge hf
    obtain ⟨f, rfl⟩ : ∃ f, fuel = f + 1 := ⟨fuel - 1, by omega⟩
    by_cases hm : nodes.length < m
    · obtain ⟨last, hl⟩ := Option.isSome_iff_exists.mp (List.getLast?_isSome.mpr hne)
      have hmemE : e ∈ ring := by
        refine List.mem_of_mem_filter (p := fun p => decide (key < p.1)) ?_
        rw [show ring.filter (fun p => decide (key < p.1)) = e :: es from hA]
        exact List.mem_cons_self e es
      have hklt : key < e.1 := by
        have hin : e ∈ afterKey ring key := by
          rw [hA]
          exact List.mem_cons_self e es
        simpa using List.of_mem_filter hin
      have hkle : ¬last.1 < key := by
        have := le_getLast_of_sorted ring last hs hl e hmemE
        omega
      rw [replicasLoop_cons ring exclude m f key nodes e es last hm hl hkle hA]
      have hA2 : afterKey ring e.1 = es := afterKey_cons_tail ring key e es hs hA
      have hrp : runPass exclude m (e :: es) nodes = runPass exclude m es
          (if ¬nodes.contains e.2 ∧ e.2 ≠ exclude then nodes ++ [e.2] else nodes) := by
        rw [runPass, if_pos hm]
      rw [hrp] at hge ⊢
      refine ih e.1 _ f hA2 hge ?_
      simp at hf
      omega
    · have hrp : runPass exclude m (e :: es) nodes = nodes := by
        rw [runPass, if_neg hm]
      rw [hrp]
      exact replicasLoop_stop ring exclude m f key nodes hm

theorem usizePred_of_pos {x : Nat} (h1 : 1 ≤ x) (h2 : x ≤ 2 ^ 64) :
    usizePred x = x - 1 := by
  unfold usizePred
  have he2 : x + (2 ^ 64 - 1) = (x - 1) + 2 ^ 64 := by omega
  rw [he2, Nat.add_mod_right, Nat.mod_eq_of_lt (by omega)]

theorem ring_length_eq (ring : List (Nat × String))
    (hvn : ∀ v ∈ ringValues ring, (ring.filter (fun p => p.2 = v)).length = 32) :
    ring.length = 32 * physCount ring := by
  classical
  have hc : ∀ v, List.count v (ring.map Prod.snd) =
      (ring.filter (fun p => p.2 = v)).length := by
    intro v
    rw [List.count_eq_countP, List.countP_map, ← List.countP_eq_length_filter]
    rfl
  have h0 : ((ring.map Prod.snd : List String) : Multiset String).toFinset.sum
      (fun a => Multiset.count a ((ring.map Prod.snd : List String) : Multiset String)) =
      ring.length := by
    rw [Multiset.toFinset_sum_count_eq]
    simp
  have h1 : ((ring.map Prod.snd : List String) : Multiset String).toFinset.sum
      (fun a => Multiset.count a ((ring.map Prod.snd : List String) : Multiset String)) =
      ((ring.map Prod.snd : List String) : Multiset String).toFinset.sum (fun _ => 32) := by
    refine Finset.sum_congr rfl (fun v hv => ?_)
    rw [Multiset.coe_count, hc v]
    exact hvn v (by simpa [ringValues] using hv)
  rw [h1] at h0
  rw [Finset.sum_const, smul_eq_mul] at h0
  have h2 : ((ring.map Prod.snd : List String) : Multiset String).toFinset.card =
      physCount ring := by
    unfold physCount
    exact List.card_toFinset (ring.map Prod.snd)
  rw [h2] at h0
  omega

/-- C2: on a ring with at least `rf` (≥ 1) physical endpoints, each owning its
32 virtual tokens, `get_replicas` returns `Ok` with exactly `rf - 1` pairwise
distinct endpoint addresses of the ring, none equal to the excluded address —
for every key that does not exceed the maximal token (above it the source's
`BTreeMap::range` call panics) and, under the fuelled embedding of the
source's `while` loop, for every sufficiently large fuel. -/
theorem C2_get_replicas_spec (ring : List (Nat × String)) (rf key : Nat)
    (exclude : String) (hs : keysSorted ring)
    (hvn : ∀ v ∈ ringValues ring, (ring.filter (fun p => p.2 = v)).length = 32)
    (hn : rf ≤ physCount ring) (hrf : 1 ≤ rf) (hlen64 : ring.length ≤ 2 ^ 64)
    (hex : exclude ∈ ringValues ring)
    (hkey : ∃ eL, ring.getLast? = some eL ∧ key ≤ eL.1) :
    ∃ l, l.length = rf - 1 ∧ l.Nodup ∧ (∀ x ∈ l, x ∈ ringValues ring ∧ x ≠ exclude) ∧
      ∀ fuel, (afterKey ring key).length + ring.length + 2 ≤ fuel →
        get_replicas ring fuel key rf exclude = some (.ok l) := by
  have hne : ring ≠ [] := by
    intro h
    rw [h] at hex
    simp [ringValues] at hex
  have hlen : ring.length = 32 * physCount ring := ring_length_eq ring hvn
  have hlenpos : 1 ≤ ring.length := by
    have := List.length_pos.mpr hne
    omega
  have hrf64 : rf ≤ 2 ^ 64 := by omega
  have hguard : ¬ usizePred ring.length < rf := by
    rw [usizePred_of_pos hlenpos hlen64]
    have h32 : 32 * rf ≤ 32 * physCount ring := Nat.mul_le_mul_left 32 hn
    omega
  have hm : usizePred rf = rf - 1 := usizePred_of_pos hrf hrf64
  set m := rf - 1 with hmdef
  have hgood : m ≤ (goodVals ring exclude).length := by
    rw [goodVals_length ring exclude hex]
    omega
  have hinv0 : PassInv ring exclude m [] := ⟨by simp, by simp, by simp⟩
  set s0 := afterKey ring key with hs0
  by_cases hcase : m ≤ (runPass exclude m s0 []).length
  · refine ⟨runPass exclude m s0 [], ?_, ?_, ?_, ?_⟩
    · have hinv1 := runPass_inv ring exclude m s0 []
        (fun e he => List.mem_of_mem_filter he) hinv0
      have := hinv1.2.2
      omega
    · exact (runPass_inv ring exclude m s0 [] (fun e he => List.mem_of_mem_filter he) hinv0).1
    · exact (runPass_inv ring exclude m s0 [] (fun e he => List.mem_of_mem_filter he) hinv0).2.1
    · intro fuel hf
      unfold get_replicas
      rw [if_neg hguard, hm]
      exact loop_reaches_pass ring exclude m hs hne s0 key [] fuel rfl hcase (by omega)
  · push_neg at hcase
    obtain ⟨h0, t, hr⟩ : ∃ h0 t, ring = h0 :: t := by
      cases ring with
      | nil => exact absurd rfl hne
      | cons a b => exact ⟨a, b, rfl⟩
    set acc1 := runPass exclude m s0 [] with hacc1
    have hinv1 : PassInv ring exclude m acc1 :=
      runPass_inv ring exclude m s0 [] (fun e he => List.mem_of_mem_filter he) hinv0
    set acc2 := (if ¬acc1.contains h0.2 ∧ h0.2 ≠ exclude then acc1 ++ [h0.2] else acc1)
      with hacc2
    have hfull : (runPass exclude m ring acc1).length = m :=
      runPass_full ring exclude m acc1 hinv1 hgood
    have hsplit : runPass exclude m ring acc1 = runPass exclude m t acc2 := by
      rw [hr, runPass, if_pos hcase]
    refine ⟨runPass exclude m t acc2, by rw [← hsplit]; omega, ?_, ?_, ?_⟩
    · rw [← hsplit]
      exact (runPass_inv ring exclude m ring acc1 (fun e he => he) hinv1).1
    · rw [← hsplit]
      exact (runPass_inv ring exclude m ring acc1 (fun e he => he) hinv1).2.1
    · intro fuel hf
      unfold get_replicas
      rw [if_neg hguard, hm]
      obtain ⟨fuel1, hfuel1, hfe⟩ : ∃ f1, ring.length + 1 ≤ f1 ∧ fuel = s0.length + f1 :=
        ⟨fuel - s0.length, by omega, by omega⟩
      rw [hfe]
      obtain ⟨key', hk1, hdisj, hk2⟩ :=
        loop_simulates_pass ring exclude m hs hne s0 key [] fuel1 rfl hcase
      rw [hk2, ← hacc1]
      obtain ⟨f2, hf2, hfe2⟩ : ∃ f2, t.length + 1 ≤ f2 ∧ fuel1 = f2 + 1 :=
        ⟨fuel1 - 1, by rw [hr] at hfuel1; simp at hfuel1; omega, by omega⟩
      rw [hfe2]
      have hhead : ring.head? = some h0 := by rw [hr]; rfl
      obtain ⟨eL, hL, hkleL⟩ := hkey
      have hkle' : ¬eL.1 < key' := by
        rcases hdisj with h | ⟨e, hmem, h⟩
        · omega
        · have := le_getLast_of_sorted ring eL hs hL e hmem
          omega
      rw [replicasLoop_wrap ring exclude m f2 key' acc1 h0 eL (by omega) hL hkle' hhead hk1]
      rw [← hacc2]
      have hA2 : afterKey ring h0.1 = t := afterKey_of_head ring h0 t hs hr
      exact loop_reaches_pass ring exclude m hs hne t h0.1 acc2 f2 hA2
        (by rw [← hsplit]; omega) hf2

set_option maxRecDepth 16384 in
/-- C2 witness: the replica-selection contract applied to the concrete
two-endpoint ring, plus a direct evaluation at fuel 130. -/
theorem C2_get_replicas_spec_witness :
    (∃ l, l.length = 2 - 1 ∧ l.Nodup ∧ (∀ x ∈ l, x ∈ ringValues ringC2 ∧ x ≠ "a") ∧
      ∀ fuel, (afterKey ringC2 0).length + ringC2.length + 2 ≤ fuel →
        get_replicas ringC2 fuel 0 2 "a" = some (.ok l)) ∧
    get_replicas ringC2 130 0 2 "a" = some (.ok ["b"]) :=
  ⟨C2_get_replicas_spec ringC2 2 0 "a" (by decide) (by decide) (by decide) (by decide)
    (by decide) (by decide) ⟨(63, "b"), by decide, by decide⟩, by decide⟩

set_option maxRecDepth 16384 in
/-- C2 counterexample: on the two-endpoint ring whose maximal token is 63, a
key above every token (such as 1000, reachable through the raw hashes that
`schema.rs` feeds into `get_replicas`) reaches the `BTreeMap::range` call with
an inverted range, and the source panics (modelled by error 999) instead of
returning `Ok` with `rf - 1` replicas. -/
theorem C2_counterexample :
    physCount ringC2 = 2 ∧ "a" ∈ ringValues ringC2 ∧
    ringC2.getLast? = some (63, "b") ∧
    get_replicas ringC2 10 1000 2 "a" = some (.error 999) := by
  refine ⟨by decide, by decide, by decide, by decide⟩

/-! ### C5 — tombstone masking and inclusion in `execute_select` -/

/-- Bind inversion for `Except`. -/
theorem except_bind_ok {α β : Type} {x : Except Nat α} {f : α → Except Nat β} {b : β}
    (h : x >>= f = .ok b) : ∃ a, x = .ok a ∧ f a = .ok b := by
  cases x with
  | error e => exact absurd h (by simp [Bind.bind, Except.bind])
  | ok a => exact ⟨a, rfl, h⟩

theorem ok_bind {α β : Type} (a : α) (f : α → Except Nat β) :
    ((Except.ok a : Except Nat α) >>= f) = f a := rfl

theorem pure_ok {α : Type} (a : α) : (pure a : Except Nat α) = Except.ok a := rfl

theorem error_bind {α β : Type} (e : Nat) (f : α → Except Nat β) :
    ((Except.error e : Except Nat α) >>= f) = Except.error e := rfl

theorem throw_error {α : Type} (e : Nat) : (throw e : Except Nat α) = Except.error e := rfl

/-- `mapM` of an everywhere-successful function is `map`. -/
theorem mapM_ok_of_eq {α β : Type} {f : α → Except Nat β} {g : α → β} :
    ∀ l : List α, (∀ a ∈ l, f a = .ok (g a)) → l.mapM f = .ok (l.map g)
  | [], _ => rfl
  | a :: l, h => by
    have h1 : f a = .ok (g a) := h a (List.mem_cons_self a l)
    have h2 : l.mapM f = .ok (l.map g) :=
      mapM_ok_of_eq l (fun x hx => h x (List.mem_cons_of_mem a hx))
    simp only [List.mapM_cons, h1, h2, ok_bind, pure_ok, List.map_cons]

/-- `mapM` succeeds when each call does. -/
theorem mapM_ok_of_forall {α β : Type} {f : α → Except Nat β} :
    ∀ l : List α, (∀ a ∈ l, ∃ b, f a = .ok b) → ∃ bs, l.mapM f = .ok bs
  | [], _ => ⟨[], rfl⟩
  | a :: l, h => by
    obtain ⟨b, hb⟩ := h a (List.mem_cons_self a l)
    obtain ⟨bs, hbs⟩ := mapM_ok_of_forall l (fun x hx => h x (List.mem_cons_of_mem a hx))
    exact ⟨b :: bs, by simp only [List.mapM_cons, hb, hbs, ok_bind, pure_ok]⟩

/-- Members of the result of an accumulate-append `foldlM` come from the
initial accumulator or from one element's contribution. -/
theorem foldlM_append_mem {α β : Type} {g : α → Except Nat (List β)}
    {f : List β → α → Except Nat (List β)}
    (hf : ∀ acc x, f acc x = g x >>= fun r => pure (acc ++ r)) :
    ∀ (l : List α) (init res : List β), l.foldlM f init = .ok res →
      ∀ x ∈ res, x ∈ init ∨ ∃ a ∈ l, ∃ r, g a = .ok r ∧ x ∈ r
  | [], init, res, h, x, hx => by
    rw [List.foldlM_nil] at h
    cases h
    exact Or.inl hx
  | a :: l, init, res, h, x, hx => by
    rw [List.foldlM_cons, hf] at h
    obtain ⟨acc', hacc', h2⟩ := except_bind_ok h
    obtain ⟨r, hgr, hp⟩ := except_bind_ok hacc'
    have hp' : (Except.ok (init ++ r) : Except Nat (List β)) = .ok acc' := hp
    have hae : init ++ r = acc' := by injection hp'
    rcases foldlM_append_mem hf l (init ++ r) res (hae ▸ h2) x hx with hi | ⟨a', ha', r', hr', hx'⟩
    · rcases List.mem_append.mp hi with h3 | h3
      · exact Or.inl h3
      · exact Or.inr ⟨a, List.mem_cons_self a l, r, hgr, h3⟩
    · exact Or.inr ⟨a', List.mem_cons_of_mem a ha', r', hr', hx'⟩

/-- An accumulate-append `foldlM` succeeds when each contribution does. -/
theorem foldlM_append_total {α β : Type} {g : α → Except Nat (List β)}
    {f : List β → α → Except Nat (List β)}
    (hf : ∀ acc x, f acc x = g x >>= fun r => pure (acc ++ r)) :
    ∀ l : List α, (∀ a ∈ l, ∃ r, g a = .ok r) →
      ∀ init : List β, ∃ res, l.foldlM f init = .ok res
  | [], _, init => ⟨init, rfl⟩
  | a :: l, h, init => by
    obtain ⟨r, hr⟩ := h a (List.mem_cons_self a l)
    obtain ⟨res, hres⟩ :=
      foldlM_append_total hf l (fun x hx => h x (List.mem_cons_of_mem a hx)) (init ++ r)
    exact ⟨res, by rw [List.foldlM_cons, hf]; simp only [hr, ok_bind, pure_ok]; exact hres⟩

theorem find_rows_step_eq (tbl : MemTable) (conditions : Clause) (need_ts : Bool) (key : Nat)
    (acc : List (Nat × List String)) (row : Line) :
    find_rows_step tbl conditions need_ts key acc row =
      find_rows_row tbl conditions need_ts key (row.drop 1) >>= fun r => pure (acc ++ r) := rfl

theorem sstable_select_step_eq (conditions : Clause) (columns : List String)
    (acc : List (Nat × List String)) (line : Line) :
    sstable_select_step conditions columns acc line =
      sstable_select_one conditions columns line >>= fun r => pure (acc ++ r) := by
  cases hm : meets_conditions (rowEnv columns (line.dropLast.tail)) conditions with
  | error e =>
    simp [sstable_select_step, sstable_select_one, List.drop_one, hm, error_bind, throw_error]
  | ok b =>
    cases b <;>
      simp [sstable_select_step, sstable_select_one, List.drop_one, hm, ok_bind, pure_ok]

/-- `find_rows_row` succeeds whenever the predicate evaluates. -/
theorem find_rows_row_total (tbl : MemTable) (conditions : Clause) (need_ts : Bool)
    (key : Nat) (row : List String)
    (hcond : ∀ env, ∃ b, meets_conditions env conditions = .ok b) :
    ∃ r, find_rows_row tbl conditions need_ts key row = .ok r := by
  cases ht : is_tombstone row.dropLast
  · obtain ⟨b, hb⟩ := hcond (rowEnv tbl.columns row.dropLast)
    cases b
    · exact ⟨[], by simp [find_rows_row, ht, hb]⟩
    · exact ⟨[(key, if need_ts then row.dropLast ++ [row.getLastD ""] else row.dropLast)],
        by simp [find_rows_row, ht, hb]⟩
  · exact ⟨[(key, if need_ts then row.dropLast ++ [row.getLastD ""] else row.dropLast)],
      by simp [find_rows_row, ht]⟩

/-- Every hit of `find_rows_row` (ran with timestamps) is the row's cells with
the timestamp re-appended. -/
theorem find_rows_row_shape {tbl : MemTable} {conditions : Clause} {key : Nat}
    {row : List String} {hit : List (Nat × List String)}
    (h : find_rows_row tbl conditions true key row = .ok hit) :
    ∀ pr ∈ hit, pr.2 = row.dropLast ++ [row.getLastD ""] := by
  intro pr hpr
  cases ht : is_tombstone row.dropLast with
  | true =>
    simp only [find_rows_row, ht, if_true] at h
    have h' : [(key, row.dropLast ++ [row.getLastD ""])] = hit := by
      injection h
    rw [← h'] at hpr
    rcases List.mem_cons.mp hpr with h1 | h1
    · rw [h1]
    · exact absurd h1 (List.not_mem_nil pr)
  | false =>
    simp only [find_rows_row, ht] at h
    cases hm : meets_conditions (rowEnv tbl.columns row.dropLast) conditions with
    | error e => rw [hm] at h; exact Except.noConfusion h
    | ok b =>
      rw [hm] at h
      cases b
      · have h' : ([] : List (Nat × List String)) = hit := by injection h
        rw [← h'] at hpr
        exact absurd hpr (List.not_mem_nil pr)
      · have h' : [(key, row.dropLast ++ [row.getLastD ""])] = hit := by injection h
        rw [← h'] at hpr
        rcases List.mem_cons.mp hpr with h1 | h1
        · rw [h1]
        · exact absurd h1 (List.not_mem_nil pr)

theorem sstable_select_one_total (conditions : Clause) (columns : List String) (line : Line)
    (hcond : ∀ env, ∃ b, meets_conditions env conditions = .ok b) :
    ∃ r, sstable_select_one conditions columns line = .ok r := by
  obtain ⟨b, hb⟩ := hcond (rowEnv columns (line.dropLast.tail))
  cases b
  · exact ⟨[], by simp [sstable_select_one, List.drop_one, hb]⟩
  · exact ⟨[((parseU128 (line.getD 0 "")).getD 0, line.drop 1)],
      by simp [sstable_select_one, List.drop_one, hb]⟩

theorem sstable_select_one_shape {conditions : Clause} {columns : List String} {line : Line}
    {r : List (Nat × List String)} (h : sstable_select_one conditions columns line = .ok r) :
    ∀ pr ∈ r, pr.2 = line.drop 1 := by
  intro pr hpr
  rw [sstable_select_one] at h
  cases hm : meets_conditions (rowEnv columns (line.dropLast.drop 1)) conditions with
  | error e => rw [hm] at h; exact Except.noConfusion h
  | ok b =>
    rw [hm] at h
    cases b
    · have h' : ([] : List (Nat × List String)) = r := by injection h
      rw [← h'] at hpr
      exact absurd hpr (List.not_mem_nil pr)
    · have h' : [((parseU128 (line.getD 0 "")).getD 0, line.drop 1)] = r := by injection h
      rw [← h'] at hpr
      rcases List.mem_cons.mp hpr with h1 | h1
      · rw [h1]
      · exact absurd h1 (List.not_mem_nil pr)

theorem sstable_execute_select_total (fileLines : List Line) (conditions : Clause)
    (columns : List String) (hcond : ∀ env, ∃ b, meets_conditions env conditions = .ok b) :
    ∃ r, sstable_execute_select fileLines conditions columns = .ok r :=
  foldlM_append_total (sstable_select_step_eq conditions columns) fileLines
    (fun line _ => sstable_select_one_total conditions columns line hcond) []

theorem sstable_execute_select_mem {fileLines : List Line} {conditions : Clause}
    {columns : List String} {res : List (Nat × List String)}
    (h : sstable_execute_select fileLines conditions columns = .ok res) :
    ∀ pr ∈ res, ∃ line ∈ fileLines, pr.2 = line.drop 1 := by
  intro pr hpr
  rcases foldlM_append_mem (sstable_select_step_eq conditions columns) fileLines [] res h pr hpr
    with hi | ⟨line, hline, r, hr, hpr'⟩
  · exact absurd hi (List.not_mem_nil pr)
  · exact ⟨line, hline, sstable_select_one_shape hr pr hpr'⟩

theorem find_rows_core_total (tbl : MemTable) (conditions : Clause) (need_ts : Bool)
    (hcond : ∀ env, ∃ b, meets_conditions env conditions = .ok b) :
    ∀ entries : List (Nat × List Line), ∃ r, find_rows_core tbl conditions need_ts entries = .ok r
  | [] => ⟨[], rfl⟩
  | (key, rows) :: rest => by
    obtain ⟨rs, hrs⟩ := foldlM_append_total (find_rows_step_eq tbl conditions need_ts key) rows
      (fun row _ => find_rows_row_total tbl conditions need_ts key (row.drop 1) hcond) []
    obtain ⟨more, hmore⟩ := find_rows_core_total tbl conditions need_ts hcond rest
    exact ⟨rs ++ more, by simp only [find_rows_core, hrs, hmore, ok_bind, pure_ok]⟩

theorem find_rows_core_mem {tbl : MemTable} {conditions : Clause} {need_ts : Bool} :
    ∀ (entries : List (Nat × List Line)) (res : List (Nat × List String)),
      find_rows_core tbl conditions need_ts entries = .ok res →
      ∀ pr ∈ res, ∃ e ∈ entries, ∃ row ∈ e.2, ∃ hit,
        find_rows_row tbl conditions need_ts e.1 (row.drop 1) = .ok hit ∧ pr ∈ hit
  | [], res, h, pr, hpr => by
    have h' : ([] : List (Nat × List String)) = res := by injection h
    rw [← h'] at hpr
    exact absurd hpr (List.not_mem_nil pr)
  | (key, rows) :: rest, res, h, pr, hpr => by
    simp only [find_rows_core] at h
    obtain ⟨rs, hrs, h1⟩ := except_bind_ok h
    obtain ⟨more, hmore, h2⟩ := except_bind_ok h1
    have h2' : (Except.ok (rs ++ more) : Except Nat (List (Nat × List String))) = .ok res := h2
    have hres : rs ++ more = res := by injection h2'
    rw [← hres] at hpr
    rcases List.mem_append.mp hpr with hm1 | hm1
    · rcases foldlM_append_mem (find_rows_step_eq tbl conditions need_ts key) rows [] rs hrs
        pr hm1 with hi | ⟨row, hrow, hit, hhit, hpr'⟩
      · exact absurd hi (List.not_mem_nil pr)
      · exact ⟨(key, rows), List.mem_cons_self _ _, row, hrow, hit, hhit, hpr'⟩
    · obtain ⟨e, he, hrest⟩ := find_rows_core_mem rest more hmore pr hm1
      exact ⟨e, List.mem_cons_of_mem _ he, hrest⟩

/-- `find_rows` succeeds whenever the predicate evaluates, and its result is
the header followed by the core hits. -/
theorem find_rows_total (tbl : MemTable) (conditions : Clause) (need_ts : Bool)
    (hcond : ∀ env, ∃ b, meets_conditions env conditions = .ok b) :
    ∃ r, find_rows tbl conditions need_ts = .ok ((0, tbl.columns) :: r) ∧
      find_rows_core tbl conditions need_ts tbl.data = .ok r := by
  obtain ⟨r, hr⟩ := find_rows_core_total tbl conditions need_ts hcond tbl.data
  exact ⟨r, by simp only [find_rows, hr, ok_bind, pure_ok], hr⟩

/-- `get_newest` only keeps (copies of) lines after the header. -/
theorem get_newest_subset (lines : List Line) :
    ∀ l ∈ get_newest lines, l ∈ lines.tail := by
  cases lines with
  | nil => intro l hl; rw [get_newest] at hl; exact absurd hl (List.not_mem_nil l)
  | cons a rest =>
    intro l hl
    rw [get_newest] at hl
    obtain ⟨e, he, hel⟩ := List.mem_map.mp hl
    have hacc := NewestAcc_foldl (fun l => l.getD 0 "") rest [] [] (NewestAcc_nil _)
    rw [List.nil_append] at hacc
    have := (hacc.2.1 e he).2.2.1
    rw [List.tail_cons]
    exact hel ▸ this

/-- A `getD` is the default or a member. -/
theorem getD_mem_or {α : Type} (l : List α) (i : Nat) (d : α) :
    l.getD i d = d ∨ l.getD i d ∈ l := by
  by_cases h : i < l.length
  · right
    rw [List.getD_eq_getElem l d h]
    exact List.getElem_mem h
  · left
    exact List.getD_eq_default l d (by omega)

/-- A row containing no `"X"` cell cannot have all its non-key cells `"X"`
(the spec's phrasing of a fully tombstoned row), provided it has any. -/
theorem noX_nonKey {tbl : MemTable} {row : List String} (hx : "X" ∉ row) :
    ¬(nonKeyIdx tbl ≠ [] ∧ ∀ i ∈ nonKeyIdx tbl, row.getD i "" = "X") := by
  rintro ⟨hne, hall⟩
  obtain ⟨i, hi⟩ := List.exists_mem_of_ne_nil _ hne
  have hgd := hall i hi
  rcases getD_mem_or row i "" with h | h
  · rw [hgd] at h
    exact absurd h (by decide)
  · rw [hgd] at h
    exact hx h

/-- The projection-and-header stage at the tail of `execute_select`: when fed
only `"X"`-free rows it emits only `"X"`-free data rows. -/
theorem select_tail_no_X (cols selCols : List String) (need_ts : Bool)
    (F : List (List String)) (out : List (List String))
    (hF : ∀ r ∈ F, "X" ∉ r)
    (h : (if selCols.length = 1 ∧ selCols.getD 0 "" = "*" then
        if need_ts then pure ((cols ++ ["timestamp"]) :: F)
        else pure ((cols :: F).map (fun row => row.dropLast))
      else if selCols.length = 1 then throw 506
      else do
        let filtered ← field_filter F cols selCols need_ts
        pure (selCols :: filtered) : Except Nat (List (List String))) = .ok out) :
    ∀ row ∈ out.tail, "X" ∉ row := by
  by_cases hc1 : selCols.length = 1 ∧ selCols.getD 0 "" = "*"
  · rw [if_pos hc1] at h
    cases need_ts with
    | true =>
      rw [if_pos rfl, pure_ok] at h
      injection h with h
      rw [← h, List.tail_cons]
      exact hF
    | false =>
      rw [if_neg (by decide), pure_ok] at h
      injection h with h
      rw [← h, List.map_cons, List.tail_cons]
      intro row hrow
      obtain ⟨r, hr, hrd⟩ := List.mem_map.mp hrow
      rw [← hrd]
      intro hX
      exact hF r hr (List.mem_of_mem_dropLast hX)
  · rw [if_neg hc1] at h
    by_cases hc2 : selCols.length = 1
    · rw [if_pos hc2] at h
      have h' : (Except.error 506 : Except Nat (List (List String))) = .ok out := h
      exact absurd h' (fun hh => Except.noConfusion hh)
    · rw [if_neg hc2] at h
      obtain ⟨filtered, hff, h⟩ := except_bind_ok h
      rw [pure_ok] at h
      injection h with h
      rw [field_filter] at hff
      obtain ⟨indices, hidx, hff⟩ := except_bind_ok hff
      rw [pure_ok] at hff
      injection hff with hff
      rw [← h, List.tail_cons, ← hff]
      intro row hrow
      obtain ⟨r, hrF, hrd⟩ := List.mem_map.mp hrow
      rw [← hrd]
      intro hX
      rcases List.mem_append.mp hX with hX | hX
      · obtain ⟨i, _, hgd⟩ := List.mem_map.mp hX
        rcases getD_mem_or r i "" with hcase | hcase
        · rw [hgd] at hcase
          exact absurd hcase (by decide)
        · rw [hgd] at hcase
          exact hF r hrF hcase
      · cases need_ts with
        | false =>
          rw [if_neg (by decide)] at hX
          exact absurd hX (List.not_mem_nil _)
        | true =>
          rw [if_pos rfl] at hX
          rcases List.mem_cons.mp hX with hX | hX
          · rw [List.getLastD_eq_getLast?] at hX
            cases hgl : r.getLast? with
            | none =>
              rw [hgl] at hX
              exact absurd hX (by decide)
            | some v =>
              rw [hgl] at hX
              exact hF r hrF (hX ▸ List.mem_of_mem_getLast? hgl)
          · exact absurd hX (List.not_mem_nil _)

/-- With tombstones excluded (the default), no returned data row of
`execute_select` contains an `"X"` cell at all. -/
theorem select_default_no_X {tbl : MemTable} {conditions : Clause} {sel ord : List String}
    {need_ts : Bool} {out : List (List String)}
    (h : execute_select tbl conditions sel ord need_ts false = .ok out) :
    ∀ row ∈ out.tail, "X" ∉ row := by
  rw [execute_select] at h
  obtain ⟨mem, hmem, h⟩ := except_bind_ok h
  obtain ⟨sst, hsst, h⟩ := except_bind_ok h
  simp only [Bool.false_eq_true, if_false, pure_ok, ok_bind] at h
  have hFA : ∀ (g1 : List (List String)),
      ∀ r ∈ g1.filter (fun row => !(row.any (fun x => x = "X"))), "X" ∉ r := by
    intro g1 r hr hxr
    have hp := List.of_mem_filter hr
    simp only [Bool.not_eq_true', List.any_eq_false, decide_eq_false_iff_not] at hp
    exact hp "X" hxr rfl
  by_cases hord : ord ≠ []
  · rw [if_pos hord] at h
    cases hs : sort_by_columns ord
        (get_newest (clean_rows_select mem ++ clean_rows_select sst)) tbl.columns with
    | error e =>
      rw [hs] at h
      have h' : (Except.error 504 : Except Nat (List (List String))) = .ok out := h
      exact absurd h' (fun hh => Except.noConfusion hh)
    | ok f1 =>
      rw [hs] at h
      exact select_tail_no_X tbl.columns (if sel = ["*"] then tbl.columns else sel) need_ts
        (f1.filter (fun row => !(row.any (fun x => x = "X")))) out (hFA f1) h
  · rw [if_neg hord] at h
    cases hs : sort_by_columns (tbl.clustering_key.map Prod.fst)
        (get_newest (clean_rows_select mem ++ clean_rows_select sst)) tbl.columns with
    | error e =>
      rw [hs] at h
      have h' : (Except.error 505 : Except Nat (List (List String))) = .ok out := h
      exact absurd h' (fun hh => Except.noConfusion hh)
    | ok f1 =>
      rw [hs] at h
      exact select_tail_no_X tbl.columns (if sel = ["*"] then tbl.columns else sel) need_ts
        (f1.filter (fun row => !(row.any (fun x => x = "X")))) out (hFA f1) h

theorem get_position_ok {vec : List String} {keyword : String}
    (h : ∃ c ∈ vec, lowerStr c = keyword) : ∃ i, get_position vec keyword = .ok i := by
  cases hf : vec.findIdx? (fun t => lowerStr t = keyword) with
  | some i => exact ⟨i, by rw [get_position, hf]⟩
  | none =>
    exfalso
    obtain ⟨c, hc, hlc⟩ := h
    have := List.findIdx?_eq_none_iff.mp hf c hc
    simp [hlc] at this

/-- `sort_by_columns` with a nonempty order of resolvable names whose last
name is itself a column succeeds with a permutation of its input. -/
theorem sort_by_columns_ok (order : List String) (chosen : List (List String))
    (file_columns : List String) (hne : order ≠ [])
    (hpos : ∀ n ∈ order, ∃ c ∈ file_columns, lowerStr c = n)
    (hlast : order.getLastD "" ∈ file_columns) :
    ∃ r, sort_by_columns order chosen file_columns = .ok r ∧ r.Perm chosen := by
  obtain ⟨positions, hpositions⟩ := mapM_ok_of_forall
    (order.take (if order.length = 1 then 1 else order.length - 1))
    (fun n hn => get_position_ok (hpos n (List.take_subset _ _ hn)))
  have hcontains : file_columns.contains (order.getLastD "") = true :=
    List.elem_eq_true_of_mem hlast
  have hgl : (order ++ ["asc"]).getLastD "" = "asc" := by
    rw [List.getLastD_eq_getLast?, List.getLast?_concat]
    rfl
  refine ⟨chosen.insertionSort (rowsLeAsc positions), ?_, List.perm_insertionSort _ _⟩
  rw [sort_by_columns, if_neg hne]
  simp only [pure_ok, ok_bind, hpositions, hcontains, if_true, hgl, eq_self_iff_true]

/-- `findIdx?` on a list whose prefix fails the predicate and whose next
element satisfies it. -/
theorem findIdx?_append_cons {α : Type} (p : α → Bool) (a : α) (rest : List α) :
    ∀ (pre : List α) (i : Nat), (∀ x ∈ pre, p x = false) → p a = true →
      List.findIdx? p (pre ++ a :: rest) i = some (i + pre.length)
  | [], i, _, hpa => by simp [List.findIdx?_cons, hpa]
  | b :: pre, i, hpre, hpa => by
    have hb : p b = false := hpre b (List.mem_cons_self b pre)
    rw [List.cons_append, List.findIdx?_cons, hb]
    simp only [Bool.false_eq_true, if_false]
    rw [findIdx?_append_cons p a rest pre (i + 1)
      (fun x hx => hpre x (List.mem_cons_of_mem b hx)) hpa]
    congr 1
    simp only [List.length_cons]
    omega

/-- On a duplicate-free column list, looking up each column's own index
yields the identity index list. -/
theorem mapM_findIdx_aux (columns : List String) (hnd : columns.Nodup) :
    ∀ (l pre : List String), columns = pre ++ l →
      (l.mapM (fun col => match columns.findIdx? (fun c => c = col) with
        | some i => (pure i : Except Nat Nat)
        | none => throw 509)) = .ok (List.range' pre.length l.length)
  | [], pre, h => rfl
  | col :: l, pre, h => by
    have hnotin : col ∉ pre := by
      rw [h] at hnd
      have hd := (List.nodup_append.mp hnd).2.2
      intro hc
      exact hd hc (List.mem_cons_self col l)
    have hfi : columns.findIdx? (fun c => c = col) = some pre.length := by
      rw [h]
      have := findIdx?_append_cons (fun c => decide (c = col)) col l pre 0
        (fun x hx => by
          simp only [decide_eq_false_iff_not]
          intro he
          exact hnotin (he ▸ hx))
        (by simp)
      simpa using this
    have hrest := mapM_findIdx_aux columns hnd l (pre ++ [col])
      (by rw [h, List.append_assoc]; rfl)
    have hlen : (pre ++ [col]).length = pre.length + 1 := by simp
    rw [hlen] at hrest
    simp only [pure_ok] at hrest
    simp only [List.mapM_cons, hfi, pure_ok, ok_bind, hrest, List.length_cons]
    rw [List.range'_succ]

theorem mapM_findIdx_self (columns : List String) (hnd : columns.Nodup) :
    (columns.mapM (fun col => match columns.findIdx? (fun c => c = col) with
      | some i => (pure i : Except Nat Nat)
      | none => throw 509)) = .ok (List.range columns.length) := by
  rw [mapM_findIdx_aux columns hnd columns [] rfl, List.range_eq_range']
  rfl

/-- Reading off positions `0 … n−1` of a row is its `n`-prefix. -/
theorem map_getD_range (row : List String) :
    ∀ n : Nat, n ≤ row.length →
      (List.range n).map (fun i => row.getD i "") = row.take n
  | 0, _ => by simp
  | n + 1, h => by
    have hn : n < row.length := h
    rw [List.range_succ, List.map_append, map_getD_range row n (Nat.le_of_lt hn),
      List.take_succ]
    have h1 : row[n]? = some row[n] := (List.getElem?_eq_some_getElem_iff row n hn).mpr trivial
    rw [h1, show List.map (fun i => row.getD i "") [n] = [row[n]] from by
      simp only [List.map_cons, List.map_nil, List.getD_eq_getElem row "" hn]]
    rfl

/-- Projecting full-width rows onto all the columns of a duplicate-free
column list (without timestamps) just drops the trailing timestamp. -/
theorem field_filter_self (columns : List String) (hnd : columns.Nodup)
    (rows : List (List String)) (hlen : ∀ r ∈ rows, r.length = columns.length + 1) :
    field_filter rows columns columns false = .ok (rows.map (fun r => r.dropLast)) := by
  rw [field_filter, mapM_findIdx_self columns hnd]
  simp only [ok_bind, pure_ok]
  congr 1
  apply List.map_congr_left
  intro r hr
  simp only [Bool.false_eq_true, if_false, List.append_nil]
  rw [map_getD_range r columns.length (by rw [hlen r hr]; omega),
    List.dropLast_eq_take, hlen r hr]
  simp

/-- With tombstones included, a `SELECT *` without explicit ordering returns
**every** merged-and-deduplicated row — tombstones included — verbatim minus
its trailing timestamp. -/
theorem select_include_verbatim {tbl : MemTable} {conditions : Clause}
    (hcond : ∀ env, ∃ b, meets_conditions env conditions = .ok b)
    (hwfdata : ∀ e ∈ tbl.data, ∀ r ∈ e.2, r.length = tbl.columns.length + 2)
    (hwfsst : ∀ l ∈ tbl.sstable, l.length = tbl.columns.length + 2)
    (hnd : tbl.columns.Nodup)
    (hlen2 : 2 ≤ tbl.columns.length)
    (hck : tbl.clustering_key ≠ [])
    (hcknames : ∀ n ∈ tbl.clustering_key.map Prod.fst, ∃ c ∈ tbl.columns, lowerStr c = n)
    (hcklast : (tbl.clustering_key.map Prod.fst).getLastD "" ∈ tbl.columns) :
    ∃ merged res, select_merged tbl conditions = .ok merged ∧
      execute_select tbl conditions ["*"] [] false true = .ok res ∧
      ∀ row ∈ merged, row.dropLast ∈ res.tail := by
  obtain ⟨r, hmem, hcore⟩ := find_rows_total tbl conditions true hcond
  obtain ⟨sst, hsst⟩ := sstable_execute_select_total tbl.sstable conditions tbl.columns hcond
  set merged := get_newest (clean_rows_select ((0, tbl.columns) :: r) ++ clean_rows_select sst)
    with hmerged
  have hmergedOk : select_merged tbl conditions = .ok merged := by
    rw [select_merged, hmem]
    simp only [ok_bind, hsst, pure_ok, hmerged]
  have htail : (clean_rows_select ((0, tbl.columns) :: r) ++ clean_rows_select sst).tail =
      clean_rows_select r ++ clean_rows_select sst := by
    rw [clean_rows_select, List.map_cons, List.cons_append, List.tail_cons]
    rfl
  have hmlen : ∀ row ∈ merged, row.length = tbl.columns.length + 1 := by
    intro row hrow
    have hsub := get_newest_subset _ row hrow
    rw [htail] at hsub
    rcases List.mem_append.mp hsub with h1 | h1
    · obtain ⟨pr, hpr, hpr2⟩ := List.mem_map.mp h1
      obtain ⟨e, he, row0, hrow0, hit, hhit, hprh⟩ := find_rows_core_mem tbl.data r hcore pr hpr
      have hsh := find_rows_row_shape hhit pr hprh
      have hl0 : row0.length = tbl.columns.length + 2 := hwfdata e he row0 hrow0
      rw [← hpr2, hsh, List.length_append, List.length_dropLast, List.length_drop, hl0]
      simp only [List.length_cons, List.length_nil]
      omega
    · obtain ⟨pr, hpr, hpr2⟩ := List.mem_map.mp h1
      obtain ⟨line, hline, hpr3⟩ := sstable_execute_select_mem hsst pr hpr
      have hl0 : line.length = tbl.columns.length + 2 := hwfsst line hline
      rw [← hpr2, hpr3, List.length_drop, hl0]
      omega
  have hckne : tbl.clustering_key.map Prod.fst ≠ [] := by
    intro hc
    exact hck (List.map_eq_nil_iff.mp hc)
  obtain ⟨sorted, hsorted, hperm⟩ := sort_by_columns_ok (tbl.clustering_key.map Prod.fst)
    merged tbl.columns hckne hcknames hcklast
  have hslen : ∀ rr ∈ sorted, rr.length = tbl.columns.length + 1 := fun rr hrr =>
    hmlen rr (hperm.mem_iff.mp hrr)
  have hff := field_filter_self tbl.columns hnd sorted hslen
  have hstar : (if (["*"] : List String) = ["*"] then tbl.columns else ["*"]) = tbl.columns :=
    if_pos rfl
  have hc1 : ¬(tbl.columns.length = 1 ∧ tbl.columns.getD 0 "" = "*") := by
    rintro ⟨h1, _⟩
    omega
  have hc2 : ¬(tbl.columns.length = 1) := by omega
  have horder : ¬(([] : List String) ≠ []) := fun hc => hc rfl
  have hexec : execute_select tbl conditions ["*"] [] false true =
      .ok (tbl.columns :: sorted.map (fun rr => rr.dropLast)) := by
    rw [execute_select, hmem]
    simp only [ok_bind, hstar, hsst, pure_ok, if_neg horder, ← hmerged, hsorted, if_true,
      eq_self_iff_true, if_neg hc1, if_neg hc2, hff]
  refine ⟨merged, tbl.columns :: sorted.map (fun rr => rr.dropLast), hmergedOk, hexec, ?_⟩
  intro row hrow
  rw [List.tail_cons]
  exact List.mem_map_of_mem _ (hperm.mem_iff.mpr hrow)

/-- C5 (amended): (1) with tombstones excluded — the default — no returned
data row of any `execute_select` contains an `"X"` cell at all; in particular
no returned row has a nonempty set of non-key cells all equal to `"X"`.
(2) With tombstones included, a `SELECT *` without explicit ordering returns
every merged-and-deduplicated row — tombstoned or not — verbatim minus its
trailing timestamp, for any well-formed table whose clustering-key names
resolve.  (The claim's stronger reading of part 2 — that every *stored*
all-`"X"` row is returned — fails, because newest-per-first-cell
deduplication runs before the tombstone handling: see the counterexample.) -/
theorem C5_tombstone_rules :
    (∀ (tbl : MemTable) (conditions : Clause) (sel ord : List String) (need_ts : Bool)
        (out : List (List String)),
      execute_select tbl conditions sel ord need_ts false = .ok out →
      ∀ row ∈ out.tail, "X" ∉ row ∧
        ¬(nonKeyIdx tbl ≠ [] ∧ ∀ i ∈ nonKeyIdx tbl, row.getD i "" = "X")) ∧
    (∀ (tbl : MemTable) (conditions : Clause),
      (∀ env, ∃ b, meets_conditions env conditions = .ok b) →
      (∀ e ∈ tbl.data, ∀ r ∈ e.2, r.length = tbl.columns.length + 2) →
      (∀ l ∈ tbl.sstable, l.length = tbl.columns.length + 2) →
      tbl.columns.Nodup →
      2 ≤ tbl.columns.length →
      tbl.clustering_key ≠ [] →
      (∀ n ∈ tbl.clustering_key.map Prod.fst, ∃ c ∈ tbl.columns, lowerStr c = n) →
      (tbl.clustering_key.map Prod.fst).getLastD "" ∈ tbl.columns →
      ∃ merged res, select_merged tbl conditions = .ok merged ∧
        execute_select tbl conditions ["*"] [] false true = .ok res ∧
        ∀ row ∈ merged, row.dropLast ∈ res.tail) := by
  constructor
  · intro tbl conditions sel ord need_ts out h row hrow
    have hx := select_default_no_X h row hrow
    exact ⟨hx, noX_nonKey hx⟩
  · intro tbl conditions hcond hwfdata hwfsst hnd hlen2 hck hcknames hcklast
    exact select_include_verbatim hcond hwfdata hwfsst hnd hlen2 hck hcknames hcklast

/-- C5 witness: both tombstone read rules applied to the concrete table
`tblC5`. -/
theorem C5_tombstone_rules_witness :
    (("X" ∉ (["1", "b"] : List String)) ∧
      ¬(nonKeyIdx tblC5 ≠ [] ∧
        ∀ i ∈ nonKeyIdx tblC5, (["1", "b"] : List String).getD i "" = "X")) ∧
    (∃ merged res, select_merged tblC5 .Placeholder = .ok merged ∧
      execute_select tblC5 .Placeholder ["*"] [] false true = .ok res ∧
      ∀ row ∈ merged, row.dropLast ∈ res.tail) :=
  ⟨C5_tombstone_rules.1 tblC5 .Placeholder ["*"] [] false [["id", "v"], ["1", "b"]]
      (by decide) ["1", "b"] (by decide),
    C5_tombstone_rules.2 tblC5 .Placeholder (fun env => ⟨true, rfl⟩) (by decide) (by decide)
      (by decide) (by decide) (by decide) (by decide) (by decide)⟩

/-! ### C6 — `parse_create` and the two PRIMARY KEY forms -/

theorem dropWhile_ne (c : Char) : ∀ (w : List Char), (∀ x ∈ w, x ≠ c) →
    w.dropWhile (fun x => x = c) = w
  | [], _ => rfl
  | a :: as, h => by
    have ha : ¬(a = c) := h a (List.mem_cons_self a as)
    simp [List.dropWhile_cons, ha]

theorem trimEndC_no (c : Char) (w : List Char) (h : ∀ x ∈ w, x ≠ c) : trimEndC c w = w := by
  rw [trimEndC, dropWhile_ne c w.reverse (fun x hx => h x (List.mem_reverse.mp hx)),
    List.reverse_reverse]

theorem trimEndC_append_one (c : Char) (w : List Char) (h : ∀ x ∈ w, x ≠ c) :
    trimEndC c (w ++ [c]) = w := by
  rw [trimEndC, List.reverse_append, List.reverse_singleton, List.singleton_append,
    List.dropWhile_cons]
  rw [if_pos (by simp)]
  rw [dropWhile_ne c w.reverse (fun x hx => h x (List.mem_reverse.mp hx)),
    List.reverse_reverse]

theorem trimMatchesC_no (c : Char) (w : List Char) (h : ∀ x ∈ w, x ≠ c) :
    trimMatchesC c w = w := by
  rw [trimMatchesC, trimEndC_no c w h, dropWhile_ne c w h]

theorem trimMatchesC_append_one (c : Char) (w : List Char) (h : ∀ x ∈ w, x ≠ c) :
    trimMatchesC c (w ++ [c]) = w := by
  rw [trimMatchesC, trimEndC_append_one c w h, dropWhile_ne c w h]

theorem splitOnC_no_sep (sep : Char) : ∀ (w : List Char), sep ∉ w → splitOnC sep w = [w]
  | [], _ => rfl
  | c :: cs, h => by
    have hc : ¬(c = sep) := fun he => h (he ▸ List.mem_cons_self c cs)
    have ih := splitOnC_no_sep sep cs (fun hm => h (List.mem_cons_of_mem c hm))
    simp only [splitOnC, if_neg hc, ih]

theorem splitOnC_append_sep (sep : Char) : ∀ (w rest : List Char), sep ∉ w →
    splitOnC sep (w ++ sep :: rest) = w :: splitOnC sep rest
  | [], rest, _ => by simp [splitOnC]
  | c :: cs, rest, h => by
    have hc : ¬(c = sep) := fun he => h (he ▸ List.mem_cons_self c cs)
    have ih := splitOnC_append_sep sep cs rest (fun hm => h (List.mem_cons_of_mem c hm))
    simp only [List.cons_append, splitOnC, if_neg hc]
    rw [show splitOnC sep (cs.append (sep :: rest)) = cs :: splitOnC sep rest from ih]

theorem splitIncC_plain (x : List Char) (hl : '(' ∉ x) (h0 : x ≠ []) :
    splitIncC '(' x = [x] := by
  rw [splitIncC, splitOnC_no_sep '(' x hl]
  simp only [joinInc, if_neg h0]

theorem splitIncC_lpar1 (x : List Char) (hl : '(' ∉ x) (h0 : x ≠ []) :
    splitIncC '(' ('(' :: x) = [['('], x] := by
  rw [splitIncC]
  rw [show splitOnC '(' ('(' :: x) = [] :: [x] from by
    simp [splitOnC, splitOnC_no_sep '(' x hl]]
  simp only [joinInc, if_neg h0, List.nil_append]

theorem splitIncC_lpar2 (x : List Char) (hl : '(' ∉ x) (h0 : x ≠ []) :
    splitIncC '(' ('(' :: '(' :: x) = [['('], ['('], x] := by
  rw [splitIncC]
  rw [show splitOnC '(' ('(' :: '(' :: x) = [] :: [] :: [x] from by
    simp [splitOnC, splitOnC_no_sep '(' x hl]]
  simp only [joinInc, if_neg h0, List.nil_append]

theorem pushParts_plain (x : List Char) (hr : ')' ∉ x) (hs : ';' ∉ x) (h0 : x ≠ []) :
    pushParts (splitOnC ')' x) = [x] := by
  rw [splitOnC_no_sep ')' x hr]
  simp only [pushParts, if_neg h0,
    trimEndC_no ';' x (fun ch hch he => hs (he ▸ hch))]

/-- `split_par` distributes over word concatenation. -/
theorem split_par_append (xs ys : List (List Char)) :
    split_par (xs ++ ys) = split_par xs ++ split_par ys := by
  simp [split_par]

/-- A word with none of the structural characters passes `split_par`
unchanged. -/
theorem split_par_plain (w : List Char) (h1 : '(' ∉ w) (h2 : ')' ∉ w) (h3 : ';' ∉ w)
    (h0 : w ≠ []) : split_par [w] = [w] := by
  simp only [split_par, List.flatMap_cons, List.flatMap_nil, List.append_nil,
    splitIncC_plain w h1 h0, pushParts_plain w h2 h3 h0]

theorem split_par_plain_list : ∀ (ws : List (List Char)),
    (∀ w ∈ ws, w ≠ [] ∧ '(' ∉ w ∧ ')' ∉ w ∧ ';' ∉ w) → split_par ws = ws
  | [], _ => rfl
  | w :: ws, h => by
    obtain ⟨h0, h1, h2, h3⟩ := h w (List.mem_cons_self w ws)
    have : split_par (w :: ws) = split_par [w] ++ split_par ws :=
      split_par_append [w] ws
    rw [this, split_par_plain w h1 h2 h3 h0,
      split_par_plain_list ws (fun x hx => h x (List.mem_cons_of_mem w hx)),
      List.singleton_append]

/-- `split_par` of a `"((x"`-shaped word. -/
theorem split_par_lpar2_tok (x : List Char) (hl : '(' ∉ x) (hr : ')' ∉ x) (hs : ';' ∉ x)
    (h0 : x ≠ []) : split_par ['(' :: '(' :: x] = [['('], ['('], x] := by
  simp only [split_par, List.flatMap_cons, List.flatMap_nil, List.append_nil,
    splitIncC_lpar2 x hl h0]
  rw [show pushParts (splitOnC ')' ['(']) = [['(']] from by decide,
    pushParts_plain x hr hs h0]
  rfl

/-- `split_par` of a `"(x"`-shaped word. -/
theorem split_par_lpar1_tok (x : List Char) (hl : '(' ∉ x) (hr : ')' ∉ x) (hs : ';' ∉ x)
    (h0 : x ≠ []) : split_par ['(' :: x] = [['('], x] := by
  simp only [split_par, List.flatMap_cons, List.flatMap_nil, List.append_nil,
    splitIncC_lpar1 x hl h0]
  rw [show pushParts (splitOnC ')' ['(']) = [['(']] from by decide,
    pushParts_plain x hr hs h0]
  rfl

/-- `split_par` of an `"x),"`-shaped word. -/
theorem split_par_close1_tok (x : List Char) (hl : '(' ∉ x) (hr : ')' ∉ x) (hs : ';' ∉ x)
    (h0 : x ≠ []) : split_par [x ++ [')'] ++ [',']] = [x, [')'], [',']] := by
  have hlx : '(' ∉ x ++ [')'] ++ [','] := by
    intro hm
    rcases List.mem_append.mp hm with hm | hm
    · rcases List.mem_append.mp hm with hm | hm
      · exact hl hm
      · simp at hm
    · simp at hm
  simp only [split_par, List.flatMap_cons, List.flatMap_nil, List.append_nil,
    splitIncC_plain (x ++ [')'] ++ [',']) hlx (by simp)]
  rw [List.append_assoc, List.singleton_append,
    splitOnC_append_sep ')' x [','] hr]
  rw [show splitOnC ')' [','] = [[',']] from by decide]
  simp only [pushParts, if_neg h0, trimEndC_no ';' x (fun ch hch he => hs (he ▸ hch))]
  rfl

/-- `split_par` of an `"x));"`-shaped word. -/
theorem split_par_close2_tok (x : List Char) (hl : '(' ∉ x) (hr : ')' ∉ x) (hs : ';' ∉ x)
    (h0 : x ≠ []) :
    split_par [x ++ [')'] ++ [')'] ++ [';']] = [x, [')'], [')'], []] := by
  have hlx : '(' ∉ x ++ [')'] ++ [')'] ++ [';'] := by
    intro hm
    rcases List.mem_append.mp hm with hm | hm
    · rcases List.mem_append.mp hm with hm | hm
      · rcases List.mem_append.mp hm with hm | hm
        · exact hl hm
        · simp at hm
      · simp at hm
    · simp at hm
  simp only [split_par, List.flatMap_cons, List.flatMap_nil, List.append_nil,
    splitIncC_plain (x ++ [')'] ++ [')'] ++ [';']) hlx (by simp)]
  rw [List.append_assoc, List.append_assoc]
  rw [show x ++ ([')'] ++ ([')'] ++ [';'])) = x ++ [')', ')', ';'] from rfl]
  rw [splitOnC_append_sep ')' x [')', ';'] hr]
  rw [show splitOnC ')' [')', ';'] = [[], [';']] from by decide]
  simp only [pushParts, if_neg h0, trimEndC_no ';' x (fun ch hch he => hs (he ▸ hch))]
  rfl

theorem enumFrom_foldl_createRun : ∀ (l : List (List Char)) (st : CreateSt) (i : Nat),
    (l.enumFrom i).foldl (fun st p => createStep st p.1 p.2) st = createRun st i l
  | [], _, _ => rfl
  | w :: ws, st, i => by
    show ((i, w) :: ws.enumFrom (i + 1)).foldl (fun st p => createStep st p.1 p.2) st =
      createRun st i (w :: ws)
    rw [List.foldl_cons]
    exact enumFrom_foldl_createRun ws (createStep st i w) (i + 1)

/-- `parse_create` through the recursive loop form. -/
theorem parse_create_run (query : List (List Char)) :
    parse_create query =
      { table_name := (createRun CreateSt.init 0 (split_par query)).table_name
        columns_type := (createRun CreateSt.init 0 (split_par query)).columns_type
        primary_key :=
          (createRun CreateSt.init 0 (split_par query)).primary_key.filter (fun x => x ≠ [])
        clustering_key :=
          (createRun CreateSt.init 0 (split_par query)).clustering_key.filter
            (fun x => x ≠ []) } := by
  simp only [parse_create]
  rw [show (split_par query).enum = (split_par query).enumFrom 0 from rfl]
  rw [enumFrom_foldl_createRun (split_par query) CreateSt.init 0]

theorem createRun_append : ∀ (xs ys : List (List Char)) (st : CreateSt) (i : Nat),
    createRun st i (xs ++ ys) = createRun (createRun st i xs) (i + xs.length) ys
  | [], ys, st, i => by rw [List.nil_append]; rfl
  | x :: xs, ys, st, i => by
    show createRun (createStep st i x) (i + 1) (xs ++ ys) = _
    rw [createRun_append xs ys (createStep st i x) (i + 1)]
    have hidx : i + 1 + xs.length = i + (x :: xs).length := by rw [List.length_cons]; omega
    rw [hidx]
    rfl

/-- Step of the loop at the table name (right after the `TABLE` keyword). -/
theorem createStep_table_name (t : List Char) (ht : upperC t ≠ "TABLE".data) :
    createStep ⟨[], [], [], [], some 1, none, none, none, []⟩ 2 t =
      ⟨t, [], [], [], none, none, none, none, []⟩ := by
  simp [createStep, ht]

/-- Step of the loop at the `"("` that opens the column definitions. -/
theorem createStep_open_cols (t : List Char) :
    createStep ⟨t, [], [], [], none, none, none, none, []⟩ 3 ['('] =
      ⟨t, [], [], [], none, some 3, none, none, []⟩ := by
  simp [createStep, show upperC ['('] ≠ "TABLE".data from by decide]

/-- The full four-token prefix `CREATE TABLE t (`. -/
theorem createRun_prefixA (t : List Char) (ht : upperC t ≠ "TABLE".data) :
    createRun CreateSt.init 0 ["CREATE".data, "TABLE".data, t, ['(']] =
      ⟨t, [], [], [], none, some 3, none, none, []⟩ := by
  show createRun (createStep CreateSt.init 0 "CREATE".data) 1 ["TABLE".data, t, ['(']] = _
  rw [show createStep CreateSt.init 0 "CREATE".data = CreateSt.init from by decide]
  show createRun (createStep CreateSt.init 1 "TABLE".data) 2 [t, ['(']] = _
  rw [show createStep CreateSt.init 1 "TABLE".data =
    ⟨[], [], [], [], some 1, none, none, none, []⟩ from by decide]
  show createRun (createStep ⟨[], [], [], [], some 1, none, none, none, []⟩ 2 t) 3 [['(']] = _
  rw [createStep_table_name t ht]
  show createRun (createStep ⟨t, [], [], [], none, none, none, none, []⟩ 3 ['(']) 4 [] = _
  rw [createStep_open_cols t]
  rfl

/-- Running the column-definition region only touches `columns_type` and
`vec_columns`. -/
theorem createRun_columns : ∀ (ws : List (List Char)),
    (∀ w ∈ ws, upperC w ≠ "TABLE".data ∧ w ≠ "PRIMARY".data ∧ w ≠ ['(']) →
    ∀ (i j : Nat) (tn : List Char) (ct : List (List Char × List Char))
      (pk ck vc : List (List Char)),
      ∃ ct' vc', createRun ⟨tn, ct, pk, ck, none, some j, none, none, vc⟩ i ws =
        ⟨tn, ct', pk, ck, none, some j, none, none, vc'⟩
  | [], _, i, j, tn, ct, pk, ck, vc => ⟨ct, vc, rfl⟩
  | w :: ws, h, i, j, tn, ct, pk, ck, vc => by
    obtain ⟨h1, h2, h3⟩ := h w (List.mem_cons_self w ws)
    have hrest := fun x hx => h x (List.mem_cons_of_mem w hx)
    by_cases hlen : (vc ++ [trimEndC ',' w]).length = 2
    · have hlen' : vc.length = 1 := by simpa using hlen
      have hstep : createStep ⟨tn, ct, pk, ck, none, some j, none, none, vc⟩ i w =
          ⟨tn, ct ++ [((vc ++ [trimEndC ',' w]).getD 0 [],
            (vc ++ [trimEndC ',' w]).getD 1 [])], pk, ck, none, some j, none, none, []⟩ := by
        simp [createStep, h1, h2, h3, hlen, hlen']
      simp only [createRun, hstep]
      exact createRun_columns ws hrest (i + 1) j tn _ pk ck []
    · have hlen' : ¬(vc.length = 1) := by simpa using hlen
      have hstep : createStep ⟨tn, ct, pk, ck, none, some j, none, none, vc⟩ i w =
          ⟨tn, ct, pk, ck, none, some j, none, none, vc ++ [trimEndC ',' w]⟩ := by
        simp [createStep, h1, h2, h3, hlen, hlen']
      simp only [createRun, hstep]
      exact createRun_columns ws hrest (i + 1) j tn ct pk ck _

theorem createStep_primary_tok {tn : List Char} {ct : List (List Char × List Char)}
    {pk ck vc : List (List Char)} {a : Nat} (i : Nat) :
    createStep ⟨tn, ct, pk, ck, none, some a, none, none, vc⟩ i "PRIMARY".data =
      ⟨tn, ct, pk, ck, none, none, none, none, vc⟩ := by
  simp [createStep, show upperC "PRIMARY".data ≠ "TABLE".data from by decide,
    show ("PRIMARY".data : List Char) ≠ ['('] from by decide]

theorem createStep_key_tok {tn : List Char} {ct : List (List Char × List Char)}
    {pk ck vc : List (List Char)} (i : Nat) :
    createStep ⟨tn, ct, pk, ck, none, none, none, none, vc⟩ i "KEY".data =
      ⟨tn, ct, pk, ck, none, none, none, some i, vc⟩ := by
  simp [createStep, show upperC "KEY".data ≠ "TABLE".data from by decide,
    show ("KEY".data : List Char) ≠ ['('] from by decide,
    show upperC "KEY".data = "KEY".data from by decide]

theorem createStep_lpar_after_key {tn : List Char} {ct : List (List Char × List Char)}
    {pk ck vc : List (List Char)} {b : Nat} (i : Nat) :
    createStep ⟨tn, ct, pk, ck, none, none, none, some b, vc⟩ i ['('] =
      ⟨tn, ct, pk, ck, none, some i, none, some b, vc⟩ := by
  simp [createStep, show upperC ['('] ≠ "TABLE".data from by decide,
    show upperC ['('] ≠ "KEY".data from by decide]

theorem createStep_lpar2_open {tn : List Char} {ct : List (List Char × List Char)}
    {pk ck vc : List (List Char)} {a b : Nat} (i : Nat) :
    createStep ⟨tn, ct, pk, ck, none, some a, none, some b, vc⟩ i ['('] =
      ⟨tn, ct, pk, ck, none, some a, some i, some b, vc⟩ := by
  simp [createStep, show upperC ['('] ≠ "TABLE".data from by decide,
    show upperC ['('] ≠ "KEY".data from by decide]

theorem createStep_pk_push {tn : List Char} {ct : List (List Char × List Char)}
    {pk ck vc : List (List Char)} {a b c : Nat} (i : Nat) (w : List Char)
    (h1 : upperC w ≠ "TABLE".data) (h2 : upperC w ≠ "KEY".data) (h3 : w ≠ ['('])
    (h4 : trimMatchesC ',' w ≠ [')']) :
    createStep ⟨tn, ct, pk, ck, none, some a, some c, some b, vc⟩ i w =
      ⟨tn, ct, pk ++ [trimEndC ',' w], ck, none, some a, some c, some b, vc⟩ := by
  simp [createStep, h1, h2, h3, h4]

theorem createStep_pk_close {tn : List Char} {ct : List (List Char × List Char)}
    {pk ck vc : List (List Char)} {a b c : Nat} (i : Nat) :
    createStep ⟨tn, ct, pk, ck, none, some a, some c, some b, vc⟩ i [')'] =
      ⟨tn, ct, pk, ck, none, some a, none, some b, vc⟩ := by
  simp [createStep, show upperC [')'] ≠ "TABLE".data from by decide,
    show upperC [')'] ≠ "KEY".data from by decide,
    show ([')'] : List Char) ≠ ['('] from by decide,
    show trimMatchesC ',' [')'] = [')'] from by decide]

theorem createStep_ck_push {tn : List Char} {ct : List (List Char × List Char)}
    {pk ck vc : List (List Char)} {a b : Nat} (i : Nat) (w : List Char)
    (h1 : upperC w ≠ "TABLE".data) (h2 : upperC w ≠ "KEY".data) (h3 : w ≠ ['('])
    (h4 : w ≠ [')']) :
    createStep ⟨tn, ct, pk, ck, none, some a, none, some b, vc⟩ i w =
      ⟨tn, ct, pk, ck ++ [trimEndC ',' w], none, some a, none, some b, vc⟩ := by
  simp [createStep, h1, h2, h3, h4]

theorem createStep_ck_close {tn : List Char} {ct : List (List Char × List Char)}
    {pk ck vc : List (List Char)} {a b : Nat} (i : Nat) :
    createStep ⟨tn, ct, pk, ck, none, some a, none, some b, vc⟩ i [')'] =
      ⟨tn, ct, pk, ck, none, some a, none, some b, vc⟩ := by
  simp [createStep, show upperC [')'] ≠ "TABLE".data from by decide,
    show upperC [')'] ≠ "KEY".data from by decide,
    show ([')'] : List Char) ≠ ['('] from by decide]

theorem upper_comma_ne (w : List Char) (v : List Char) (hv : v.getLastD ' ' ≠ ',') :
    upperC (w ++ [',']) ≠ v := by
  intro he
  apply hv
  rw [← he, upperC, List.map_append]
  rw [show List.map Char.toUpper [','] = [','] from by decide]
  rw [List.getLastD_eq_getLast?, List.getLast?_concat]
  rfl

theorem append_one_ne_one (w : List Char) {a b : Char} (hab : a ≠ b) : w ++ [a] ≠ [b] := by
  intro h
  cases w with
  | nil => exact hab (by simpa using h)
  | cons x xs =>
    have hl := congrArg List.length h
    simp [List.length_append] at hl

theorem identTok_facts {w : List Char} (h : identTok w) :
    w ≠ ['('] ∧ w ≠ [')'] ∧ trimMatchesC ',' w = w ∧ trimEndC ',' w = w := by
  obtain ⟨h0, hch, _, _, _⟩ := h
  refine ⟨?_, ?_, trimMatchesC_no ',' w (fun x hx => (hch x hx).2.2.1),
    trimEndC_no ',' w (fun x hx => (hch x hx).2.2.1)⟩
  · intro he
    exact (hch '(' (by rw [he]; exact List.mem_cons_self _ _)).1 rfl
  · intro he
    exact (hch ')' (by rw [he]; exact List.mem_cons_self _ _)).2.1 rfl

theorem comma_tok_facts {w : List Char} (h : identTok w) :
    upperC (w ++ [',']) ≠ "TABLE".data ∧ upperC (w ++ [',']) ≠ "KEY".data ∧
    (w ++ [','] : List Char) ≠ ['('] ∧ (w ++ [','] : List Char) ≠ [')'] ∧
    trimMatchesC ',' (w ++ [',']) = w ∧ trimEndC ',' (w ++ [',']) = w := by
  obtain ⟨h0, hch, _, _, _⟩ := h
  have hcomma : ∀ x ∈ w, x ≠ ',' := fun x hx => (hch x hx).2.2.1
  exact ⟨upper_comma_ne w "TABLE".data (by decide),
    upper_comma_ne w "KEY".data (by decide),
    append_one_ne_one w (by decide), append_one_ne_one w (by decide),
    trimMatchesC_append_one ',' w hcomma, trimEndC_append_one ',' w hcomma⟩

theorem notMem_comma_append {p : List Char} (c : Char) (hc : c ≠ ',')
    (hp : ∀ ch ∈ p, ch ≠ c) : c ∉ p ++ [','] := by
  intro hm
  rcases List.mem_append.mp hm with hm | hm
  · exact hp c hm rfl
  · simp at hm
    exact hc hm

/-- The token-loop trajectory over the `PRIMARY KEY ((p1, p2), c1, c2));`
suffix, from an arbitrary point in the column region. -/
theorem createRun_tailA (t p1 p2 c1 c2 : List Char) (hp1 : identTok p1) (hp2 : identTok p2)
    (hc1 : identTok c1) (hc2 : identTok c2)
    (ct : List (List Char × List Char)) (vc : List (List Char)) (j i0 : Nat) :
    createRun ⟨t, ct, [], [], none, some j, none, none, vc⟩ i0
      ["PRIMARY".data, "KEY".data, ['('], ['('], p1 ++ [','], p2, [')'], [','],
        c1 ++ [','], c2, [')'], [')'], []] =
      ⟨t, ct, [p1, p2], [[], c1, c2, []], none, some (i0 + 2), none, some (i0 + 1), vc⟩ := by
  obtain ⟨p1TA, p1K, p1L, p1R, p1TM, p1TE⟩ := comma_tok_facts hp1
  obtain ⟨p2L, p2R, p2TM, p2TE⟩ := identTok_facts hp2
  obtain ⟨c1TA, c1K, c1L, c1R, c1TM, c1TE⟩ := comma_tok_facts hc1
  obtain ⟨c2L, c2R, c2TM, c2TE⟩ := identTok_facts hc2
  have hp1rm : trimMatchesC ',' (p1 ++ [',']) ≠ [')'] := by
    rw [p1TM]
    exact (identTok_facts hp1).2.1
  have hp2rm : trimMatchesC ',' p2 ≠ [')'] := by
    rw [p2TM]
    exact p2R
  simp only [createRun]
  rw [createStep_primary_tok]
  rw [createStep_key_tok]
  rw [createStep_lpar_after_key]
  rw [createStep_lpar2_open]
  rw [createStep_pk_push _ _ p1TA p1K p1L hp1rm]
  rw [createStep_pk_push _ _ hp2.2.2.1 hp2.2.2.2.1 p2L hp2rm]
  rw [createStep_pk_close]
  rw [createStep_ck_push _ [','] (by decide) (by decide) (by decide) (by decide)]
  rw [createStep_ck_push _ _ c1TA c1K c1L c1R]
  rw [createStep_ck_push _ _ hc2.2.2.1 hc2.2.2.2.1 c2L c2R]
  rw [createStep_ck_close]
  rw [createStep_ck_close]
  rw [createStep_ck_push _ [] (by decide) (by decide) (by decide) (by decide)]
  simp [p1TE, p2TE, c1TE, c2TE,
    show trimEndC ',' [','] = ([] : List Char) from by decide,
    show trimEndC ',' ([] : List Char) = [] from rfl]

/-- The token-loop trajectory over the `PRIMARY KEY (p, c1));` suffix, from an
arbitrary point in the column region. -/
theorem createRun_tailB (t p c1 : List Char) (hp : identTok p) (hc1 : identTok c1)
    (ct : List (List Char × List Char)) (vc : List (List Char)) (j i0 : Nat) :
    createRun ⟨t, ct, [], [], none, some j, none, none, vc⟩ i0
      ["PRIMARY".data, "KEY".data, ['('], p ++ [','], c1, [')'], [')'], []] =
      ⟨t, ct, [], [p, c1, []], none, some (i0 + 2), none, some (i0 + 1), vc⟩ := by
  obtain ⟨pTA, pK, pL, pR, pTM, pTE⟩ := comma_tok_facts hp
  obtain ⟨c1L, c1R, c1TM, c1TE⟩ := identTok_facts hc1
  simp only [createRun]
  rw [createStep_primary_tok]
  rw [createStep_key_tok]
  rw [createStep_lpar_after_key]
  rw [createStep_ck_push _ _ pTA pK pL pR]
  rw [createStep_ck_push _ _ hc1.2.2.1 hc1.2.2.2.1 c1L c1R]
  rw [createStep_ck_close]
  rw [createStep_ck_close]
  rw [createStep_ck_push _ [] (by decide) (by decide) (by decide) (by decide)]
  simp [pTE, c1TE, show trimEndC ',' ([] : List Char) = [] from rfl]

/-- `split_par` of a whole `CREATE TABLE … PRIMARY KEY ((p1, p2), c1, c2));`
statement. -/
theorem split_par_formA (t p1 p2 c1 c2 : List Char) (colWords : List (List Char))
    (ht : identTok t) (hp1 : identTok p1) (hp2 : identTok p2) (hc1 : identTok c1)
    (hc2 : identTok c2)
    (hcol : ∀ w ∈ colWords, w ≠ [] ∧ '(' ∉ w ∧ ')' ∉ w ∧ ';' ∉ w) :
    split_par (["CREATE".data, "TABLE".data, t, ['(']] ++ colWords ++
        ["PRIMARY".data, "KEY".data, '(' :: '(' :: (p1 ++ [',']), p2 ++ [')'] ++ [','],
          c1 ++ [','], c2 ++ [')'] ++ [')'] ++ [';']]) =
      ["CREATE".data, "TABLE".data, t, ['(']] ++ colWords ++
        ["PRIMARY".data, "KEY".data, ['('], ['('], p1 ++ [','], p2, [')'], [','],
          c1 ++ [','], c2, [')'], [')'], []] := by
  have htch := ht.2.1
  have hA : split_par ["CREATE".data, "TABLE".data, t, ['(']] =
      ["CREATE".data, "TABLE".data, t, ['(']] := by
    rw [show (["CREATE".data, "TABLE".data, t, ['(']] : List (List Char)) =
      ["CREATE".data, "TABLE".data] ++ ([t] ++ [['(']]) from rfl]
    rw [split_par_append, split_par_append]
    rw [split_par_plain t (fun hm => (htch '(' hm).1 rfl) (fun hm => (htch ')' hm).2.1 rfl)
      (fun hm => (htch ';' hm).2.2.2 rfl) ht.1]
    rw [show split_par ["CREATE".data, "TABLE".data] = ["CREATE".data, "TABLE".data] from
      by decide]
    rw [show split_par [['(']] = [['(']] from by decide]
  have hB : split_par ["PRIMARY".data, "KEY".data, '(' :: '(' :: (p1 ++ [',']),
      p2 ++ [')'] ++ [','], c1 ++ [','], c2 ++ [')'] ++ [')'] ++ [';']] =
      ["PRIMARY".data, "KEY".data, ['('], ['('], p1 ++ [','], p2, [')'], [','],
        c1 ++ [','], c2, [')'], [')'], []] := by
    rw [show (["PRIMARY".data, "KEY".data, '(' :: '(' :: (p1 ++ [',']), p2 ++ [')'] ++ [','],
        c1 ++ [','], c2 ++ [')'] ++ [')'] ++ [';']] : List (List Char)) =
      ["PRIMARY".data, "KEY".data] ++ (['(' :: '(' :: (p1 ++ [','])] ++
        ([p2 ++ [')'] ++ [',']] ++ ([c1 ++ [',']] ++ [c2 ++ [')'] ++ [')'] ++ [';']])))
      from rfl]
    rw [split_par_append, split_par_append, split_par_append, split_par_append]
    rw [show split_par ["PRIMARY".data, "KEY".data] = ["PRIMARY".data, "KEY".data] from
      by decide]
    rw [split_par_lpar2_tok (p1 ++ [','])
      (notMem_comma_append '(' (by decide) (fun ch hch => (hp1.2.1 ch hch).1))
      (notMem_comma_append ')' (by decide) (fun ch hch => (hp1.2.1 ch hch).2.1))
      (notMem_comma_append ';' (by decide) (fun ch hch => (hp1.2.1 ch hch).2.2.2))
      (by simp)]
    rw [split_par_close1_tok p2 (fun hm => (hp2.2.1 '(' hm).1 rfl)
      (fun hm => (hp2.2.1 ')' hm).2.1 rfl) (fun hm => (hp2.2.1 ';' hm).2.2.2 rfl) hp2.1]
    rw [split_par_plain (c1 ++ [','])
      (notMem_comma_append '(' (by decide) (fun ch hch => (hc1.2.1 ch hch).1))
      (notMem_comma_append ')' (by decide) (fun ch hch => (hc1.2.1 ch hch).2.1))
      (notMem_comma_append ';' (by decide) (fun ch hch => (hc1.2.1 ch hch).2.2.2))
      (by simp)]
    rw [split_par_close2_tok c2 (fun hm => (hc2.2.1 '(' hm).1 rfl)
      (fun hm => (hc2.2.1 ')' hm).2.1 rfl) (fun hm => (hc2.2.1 ';' hm).2.2.2 rfl) hc2.1]
    rfl
  rw [split_par_append, split_par_append, hA, split_par_plain_list colWords hcol, hB]

/-- `split_par` of a whole `CREATE TABLE … PRIMARY KEY (p, c1));` statement. -/
theorem split_par_formB (t p c1 : List Char) (colWords : List (List Char))
    (ht : identTok t) (hp : identTok p) (hc1 : identTok c1)
    (hcol : ∀ w ∈ colWords, w ≠ [] ∧ '(' ∉ w ∧ ')' ∉ w ∧ ';' ∉ w) :
    split_par (["CREATE".data, "TABLE".data, t, ['(']] ++ colWords ++
        ["PRIMARY".data, "KEY".data, '(' :: (p ++ [',']), c1 ++ [')'] ++ [')'] ++ [';']]) =
      ["CREATE".data, "TABLE".data, t, ['(']] ++ colWords ++
        ["PRIMARY".data, "KEY".data, ['('], p ++ [','], c1, [')'], [')'], []] := by
  have htch := ht.2.1
  have hA : split_par ["CREATE".data, "TABLE".data, t, ['(']] =
      ["CREATE".data, "TABLE".data, t, ['(']] := by
    rw [show (["CREATE".data, "TABLE".data, t, ['(']] : List (List Char)) =
      ["CREATE".data, "TABLE".data] ++ ([t] ++ [['(']]) from rfl]
    rw [split_par_append, split_par_append]
    rw [split_par_plain t (fun hm => (htch '(' hm).1 rfl) (fun hm => (htch ')' hm).2.1 rfl)
      (fun hm => (htch ';' hm).2.2.2 rfl) ht.1]
    rw [show split_par ["CREATE".data, "TABLE".data] = ["CREATE".data, "TABLE".data] from
      by decide]
    rw [show split_par [['(']] = [['(']] from by decide]
  have hB : split_par ["PRIMARY".data, "KEY".data, '(' :: (p ++ [',']),
      c1 ++ [')'] ++ [')'] ++ [';']] =
      ["PRIMARY".data, "KEY".data, ['('], p ++ [','], c1, [')'], [')'], []] := by
    rw [show (["PRIMARY".data, "KEY".data, '(' :: (p ++ [',']),
        c1 ++ [')'] ++ [')'] ++ [';']] : List (List Char)) =
      ["PRIMARY".data, "KEY".data] ++ (['(' :: (p ++ [','])] ++
        [c1 ++ [')'] ++ [')'] ++ [';']]) from rfl]
    rw [split_par_append, split_par_append]
    rw [show split_par ["PRIMARY".data, "KEY".data] = ["PRIMARY".data, "KEY".data] from
      by decide]
    rw [split_par_lpar1_tok (p ++ [','])
      (notMem_comma_append '(' (by decide) (fun ch hch => (hp.2.1 ch hch).1))
      (notMem_comma_append ')' (by decide) (fun ch hch => (hp.2.1 ch hch).2.1))
      (notMem_comma_append ';' (by decide) (fun ch hch => (hp.2.1 ch hch).2.2.2))
      (by simp)]
    rw [split_par_close2_tok c1 (fun hm => (hc1.2.1 '(' hm).1 rfl)
      (fun hm => (hc1.2.1 ')' hm).2.1 rfl) (fun hm => (hc1.2.1 ';' hm).2.2.2 rfl) hc1.1]
    rfl
  rw [split_par_append, split_par_append, hA, split_par_plain_list colWords hcol, hB]

/-- C6: in a whitespace-split `CREATE TABLE` statement with well-formed
identifiers, the clause `PRIMARY KEY ((p1, p2), c1, c2));` parses to
partition key `[p1, p2]` and clustering key `[c1, c2]`, while the
inner-parenthesis-free clause `PRIMARY KEY (p, c1));` parses to partition key
`[]` and clustering key `[p, c1]` — the first name is **not** promoted to the
partition key, exactly as the spec (§9) records. -/
theorem C6_parse_create_primary_key :
    (∀ (t p1 p2 c1 c2 : List Char) (colWords : List (List Char)),
      identTok t → identTok p1 → identTok p2 → identTok c1 → identTok c2 →
      (∀ w ∈ colWords, w ≠ [] ∧ upperC w ≠ "TABLE".data ∧ w ≠ "PRIMARY".data ∧
        '(' ∉ w ∧ ')' ∉ w ∧ ';' ∉ w) →
      (parse_create (["CREATE".data, "TABLE".data, t, ['(']] ++ colWords ++
        ["PRIMARY".data, "KEY".data, '(' :: '(' :: (p1 ++ [',']), p2 ++ [')'] ++ [','],
          c1 ++ [','], c2 ++ [')'] ++ [')'] ++ [';']])).primary_key = [p1, p2] ∧
      (parse_create (["CREATE".data, "TABLE".data, t, ['(']] ++ colWords ++
        ["PRIMARY".data, "KEY".data, '(' :: '(' :: (p1 ++ [',']), p2 ++ [')'] ++ [','],
          c1 ++ [','], c2 ++ [')'] ++ [')'] ++ [';']])).clustering_key = [c1, c2]) ∧
    (∀ (t p c1 : List Char) (colWords : List (List Char)),
      identTok t → identTok p → identTok c1 →
      (∀ w ∈ colWords, w ≠ [] ∧ upperC w ≠ "TABLE".data ∧ w ≠ "PRIMARY".data ∧
        '(' ∉ w ∧ ')' ∉ w ∧ ';' ∉ w) →
      (parse_create (["CREATE".data, "TABLE".data, t, ['(']] ++ colWords ++
        ["PRIMARY".data, "KEY".data, '(' :: (p ++ [',']),
          c1 ++ [')'] ++ [')'] ++ [';']])).primary_key = [] ∧
      (parse_create (["CREATE".data, "TABLE".data, t, ['(']] ++ colWords ++
        ["PRIMARY".data, "KEY".data, '(' :: (p ++ [',']),
          c1 ++ [')'] ++ [')'] ++ [';']])).clustering_key = [p, c1]) := by
  constructor
  · intro t p1 p2 c1 c2 colWords ht hp1 hp2 hc1 hc2 hcol
    have hcolsp : ∀ w ∈ colWords, w ≠ [] ∧ '(' ∉ w ∧ ')' ∉ w ∧ ';' ∉ w := fun w hw =>
      ⟨(hcol w hw).1, (hcol w hw).2.2.2.1, (hcol w hw).2.2.2.2.1, (hcol w hw).2.2.2.2.2⟩
    have hcolrun : ∀ w ∈ colWords, upperC w ≠ "TABLE".data ∧ w ≠ "PRIMARY".data ∧
        w ≠ ['('] := fun w hw =>
      ⟨(hcol w hw).2.1, (hcol w hw).2.2.1,
        fun he => (hcol w hw).2.2.2.1 (by rw [he]; exact List.mem_cons_self _ _)⟩
    have hsplit := split_par_formA t p1 p2 c1 c2 colWords ht hp1 hp2 hc1 hc2 hcolsp
    have h0 := createRun_append ["CREATE".data, "TABLE".data, t, ['(']] colWords
      CreateSt.init 0
    rw [createRun_prefixA t ht.2.2.1] at h0
    obtain ⟨ct', vc', h3⟩ := createRun_columns colWords hcolrun
      (0 + (["CREATE".data, "TABLE".data, t, ['(']] : List (List Char)).length) 3 t [] [] [] []
    rw [h3] at h0
    have h1 := createRun_append (["CREATE".data, "TABLE".data, t, ['(']] ++ colWords)
      ["PRIMARY".data, "KEY".data, ['('], ['('], p1 ++ [','], p2, [')'], [','],
        c1 ++ [','], c2, [')'], [')'], []] CreateSt.init 0
    rw [h0] at h1
    rw [createRun_tailA t p1 p2 c1 c2 hp1 hp2 hc1 hc2 ct' vc' 3 _] at h1
    have hq := parse_create_run (["CREATE".data, "TABLE".data, t, ['(']] ++ colWords ++
      ["PRIMARY".data, "KEY".data, '(' :: '(' :: (p1 ++ [',']), p2 ++ [')'] ++ [','],
        c1 ++ [','], c2 ++ [')'] ++ [')'] ++ [';']])
    rw [hsplit, h1] at hq
    rw [hq]
    constructor
    · simp [hp1.1, hp2.1]
    · simp [hc1.1, hc2.1]
  · intro t p c1 colWords ht hp hc1 hcol
    have hcolsp : ∀ w ∈ colWords, w ≠ [] ∧ '(' ∉ w ∧ ')' ∉ w ∧ ';' ∉ w := fun w hw =>
      ⟨(hcol w hw).1, (hcol w hw).2.2.2.1, (hcol w hw).2.2.2.2.1, (hcol w hw).2.2.2.2.2⟩
    have hcolrun : ∀ w ∈ colWords, upperC w ≠ "TABLE".data ∧ w ≠ "PRIMARY".data ∧
        w ≠ ['('] := fun w hw =>
      ⟨(hcol w hw).2.1, (hcol w hw).2.2.1,
        fun he => (hcol w hw).2.2.2.1 (by rw [he]; exact List.mem_cons_self _ _)⟩
    have hsplit := split_par_formB t p c1 colWords ht hp hc1 hcolsp
    have h0 := createRun_append ["CREATE".data, "TABLE".data, t, ['(']] colWords
      CreateSt.init 0
    rw [createRun_prefixA t ht.2.2.1] at h0
    obtain ⟨ct', vc', h3⟩ := createRun_columns colWords hcolrun
      (0 + (["CREATE".data, "TABLE".data, t, ['(']] : List (List Char)).length) 3 t [] [] [] []
    rw [h3] at h0
    have h1 := createRun_append (["CREATE".data, "TABLE".data, t, ['(']] ++ colWords)
      ["PRIMARY".data, "KEY".data, ['('], p ++ [','], c1, [')'], [')'], []] CreateSt.init 0
    rw [h0] at h1
    rw [createRun_tailB t p c1 hp hc1 ct' vc' 3 _] at h1
    have hq := parse_create_run (["CREATE".data, "TABLE".data, t, ['(']] ++ colWords ++
      ["PRIMARY".data, "KEY".data, '(' :: (p ++ [',']), c1 ++ [')'] ++ [')'] ++ [';']])
    rw [hsplit, h1] at hq
    rw [hq]
    constructor
    · simp
    · simp [hp.1, hc1.1]

/-- C6 witness: both PRIMARY KEY forms at concrete identifiers. -/
theorem C6_parse_create_primary_key_witness :
    ((parse_create (["CREATE".data, "TABLE".data, "tbl".data, ['(']] ++
        ["a".data, "int,".data] ++
        ["PRIMARY".data, "KEY".data, '(' :: '(' :: ("k1".data ++ [',']),
          "k2".data ++ [')'] ++ [','], "s1".data ++ [','],
          "s2".data ++ [')'] ++ [')'] ++ [';']])).primary_key = ["k1".data, "k2".data] ∧
      (parse_create (["CREATE".data, "TABLE".data, "tbl".data, ['(']] ++
        ["a".data, "int,".data] ++
        ["PRIMARY".data, "KEY".data, '(' :: '(' :: ("k1".data ++ [',']),
          "k2".data ++ [')'] ++ [','], "s1".data ++ [','],
          "s2".data ++ [')'] ++ [')'] ++ [';']])).clustering_key =
        ["s1".data, "s2".data]) ∧
    ((parse_create (["CREATE".data, "TABLE".data, "tbl".data, ['(']] ++
        ["a".data, "int,".data] ++
        ["PRIMARY".data, "KEY".data, '(' :: ("k1".data ++ [',']),
          "s1".data ++ [')'] ++ [')'] ++ [';']])).primary_key = [] ∧
      (parse_create (["CREATE".data, "TABLE".data, "tbl".data, ['(']] ++
        ["a".data, "int,".data] ++
        ["PRIMARY".data, "KEY".data, '(' :: ("k1".data ++ [',']),
          "s1".data ++ [')'] ++ [')'] ++ [';']])).clustering_key =
        ["k1".data, "s1".data]) :=
  ⟨C6_parse_create_primary_key.1 "tbl".data "k1".data "k2".data "s1".data "s2".data
      ["a".data, "int,".data] (by decide) (by decide) (by decide) (by decide) (by decide)
      (by decide),
    C6_parse_create_primary_key.2 "tbl".data "k1".data "s1".data
      ["a".data, "int,".data] (by decide) (by decide) (by decide) (by decide)⟩

end AirRust
